import Mathlib

/-!
Shallow embedding of the C++ search-server repository (files
`string_processing.cpp/h`, `search_server.cpp/h`, `process_queries.cpp/h`)
together with proofs about its specification claims.

Modelling conventions:
* `std::string` text is modelled as `List Char`; a C++ `char c` with
  `c >= '\0' && c < ' '` (a control byte on a signed-`char` platform)
  corresponds to `c.toNat < 32`.
* `std::map` / `std::set` are modelled as association lists / lists; the
  claims under study are membership-, count- and order-chain-based, so the
  sortedness of the C++ containers is not needed, only key uniqueness where
  it matters (tracked by `AMap.keysNodup`).
* `double` arithmetic is modelled over `ℚ`; the transcendental `std::log`
  is a parameter `log : ℚ → ℚ` of the query pipeline, so every theorem
  about ranking holds for an arbitrary interpretation of the logarithm.
* a C++ `throw` is modelled by `Option`/`Except` results; a member function
  that throws before mutating returns the caller-visible state unchanged.
-/

set_option maxHeartbeats 1000000
set_option linter.unusedSectionVars false
set_option linter.unusedVariables false

/-- A C++ control byte: `c >= '\0' && c < ' '` in `SearchServer::IsValidWord`. -/
def isControlChar (c : Char) : Bool := decide (c.toNat < 32)

/-- `DocumentStatus` from `document.h` (four variants, used by filtering). -/
inductive DocumentStatus where
  | ACTUAL
  | IRRELEVANT
  | BANNED
  | REMOVED
deriving DecidableEq, Repr, Inhabited

/-- The result record `Document {id, relevance, rating}`. -/
structure Document where
  id : Int
  relevance : ℚ
  rating : Int
deriving DecidableEq, Repr, Inhabited

/-- The execution-mode enum `Policy` from `search_server.h`. -/
inductive Policy where
  | parallel
  | sequential
deriving DecidableEq, Repr

namespace AMap

variable {κ : Type} {ν : Type} [DecidableEq κ]

/-- Lookup in an association list modelling `std::map`: the value at the
first entry whose key equals `k`. -/
def find? (k : κ) : List (κ × ν) → Option ν
  | [] => none
  | p :: rest => if p.1 = k then some p.2 else find? k rest

/-- `m.at(k)` with a default: `find?` or the supplied default value. -/
def getD (k : κ) (d : ν) (m : List (κ × ν)) : ν := (find? k m).getD d

/-- `m[k] = v`: replace the value at key `k`, or append a fresh entry. -/
def setVal (k : κ) (v : ν) : List (κ × ν) → List (κ × ν)
  | [] => [(k, v)]
  | p :: rest => if p.1 = k then (k, v) :: rest else p :: setVal k v rest

/-- `m.erase(k)`: drop the entry (entries) with key `k`. -/
def eraseKey (k : κ) (m : List (κ × ν)) : List (κ × ν) :=
  m.filter (fun p => decide (p.1 ≠ k))

/-- `m.emplace(k, v)`: insert only when the key is absent. -/
def emplace (k : κ) (v : ν) (m : List (κ × ν)) : List (κ × ν) :=
  if (find? k m).isSome then m else m ++ [(k, v)]

/-- The keys of an association list. -/
def keys (m : List (κ × ν)) : List κ := m.map Prod.fst

/-- Key uniqueness, the `std::map` representation invariant we track. -/
def keysNodup (m : List (κ × ν)) : Prop := (keys m).Nodup

end AMap

/-! ## Tokenizers (`string_processing.cpp`) -/

/-- The whitespace accepted by the stream extractor `std::istringstream >> word`
in the classic locale: space, tab, newline, vertical tab, form feed, carriage
return. -/
def isCppSpace (c : Char) : Bool :=
  c == ' ' || c == '\t' || c == '\n' || c == '\x0b' || c == '\x0c' || c == '\r'

/-- Segment a character list at every separator byte, keeping empty segments:
`segmentsBy p l` always returns `k+1` segments when `l` contains `k`
separators.  This is the specification-side anchor for both tokenizers. -/
def segmentsBy (p : Char → Bool) : List Char → List (List Char)
  | [] => [[]]
  | c :: cs => if p c then [] :: segmentsBy p cs else (segmentsBy p cs).modifyHead (c :: ·)

/-- Prepend a prefix onto the first segment of a segment list. -/
def consHead (pre : List Char) : List (List Char) → List (List Char)
  | [] => [pre]
  | s :: rest => (pre ++ s) :: rest

/-- Accumulator loop for the owning-string `SplitIntoWords`: repeated
`text_stream >> word` extraction (skip whitespace, read a maximal run of
non-whitespace); `acc` is the reversed current word. -/
def splitIntoWordsAux : List Char → List Char → List (List Char)
  | [], acc => if acc.isEmpty then [] else [acc.reverse]
  | c :: cs, acc =>
    if isCppSpace c then
      if acc.isEmpty then splitIntoWordsAux cs []
      else acc.reverse :: splitIntoWordsAux cs []
    else splitIntoWordsAux cs (c :: acc)

/-- `string_processing::SplitIntoWords(const std::string&)`: stream-extractor
tokenization. -/
def splitIntoWords (text : List Char) : List (List Char) :=
  splitIntoWordsAux text []

/-- Accumulator loop for the borrowed `string_view` `SplitIntoWords`: the
`find(' ')` / `substr` / `remove_prefix` loop pushes the text up to each
space (including empty pieces) and one final piece. -/
def splitViewAux : List Char → List Char → List (List Char)
  | [], acc => [acc.reverse]
  | c :: cs, acc =>
    if c == ' ' then acc.reverse :: splitViewAux cs [] else splitViewAux cs (c :: acc)

/-- `string_processing::SplitIntoWords(std::string_view)`. -/
def splitIntoWordsView (text : List Char) : List (List Char) :=
  splitViewAux text []

/-! ## The search server data model (`search_server.h`) -/

/-- `SearchServer::IsValidWord`: no control byte anywhere in the word. -/
def IsValidWord (w : List Char) : Bool := !(w.any isControlChar)

/-- Per-document data: average rating, status, per-term frequency map. -/
structure DocumentData where
  rating : Int
  status : DocumentStatus
  word_frequencies : List (List Char × ℚ)
deriving DecidableEq, Repr

instance : Inhabited DocumentData := ⟨⟨0, DocumentStatus.ACTUAL, []⟩⟩

/-- The four containers of `SearchServer`. -/
structure SearchServer where
  stop_words : List (List Char)
  word_to_document_id_to_term_frequency : List (List Char × List (Int × ℚ))
  document_id_to_document_data : List (Int × DocumentData)
  document_ids : List Int
deriving Repr

/-- The default-constructed server `SearchServer()`. -/
def SearchServer.init : SearchServer := ⟨[], [], [], []⟩

/-- A parsed query word (`SearchServer::QueryWord`). -/
structure QueryWord where
  data : List Char
  is_minus : Bool
  is_stop : Bool
deriving DecidableEq, Repr

/-- A parsed query (`SearchServer::Query`): plus- and minus-word sets. -/
structure Query where
  plus_words : List (List Char)
  minus_words : List (List Char)
deriving DecidableEq, Repr

/-- `std::set` insertion: add the element only when absent. -/
def insertSet {α : Type} [DecidableEq α] (a : α) (s : List α) : List α :=
  if a ∈ s then s else s ++ [a]

namespace SearchServer

/-- `SearchServer::IsStopWord`. -/
def IsStopWord (s : SearchServer) (w : List Char) : Bool := decide (w ∈ s.stop_words)

/-- `SearchServer::SplitIntoWordsNoStop`: tokenize, drop stop words. -/
def SplitIntoWordsNoStop (s : SearchServer) (text : List Char) : List (List Char) :=
  (splitIntoWords text).filter (fun w => !(s.IsStopWord w))

/-- `SearchServer::ComputeAverageRating`: sum, then C++ integer division
(truncation toward zero). -/
def ComputeAverageRating (ratings : List Int) : Int :=
  Int.tdiv (ratings.foldl (· + ·) 0) (ratings.length : Int)

/-- `SearchServer::GetDocumentCount`. -/
def GetDocumentCount (s : SearchServer) : Int :=
  (s.document_id_to_document_data.length : Int)

/-- `SearchServer::GetWordFrequencies`: the stored per-term map, or the
static empty map for an unknown id. -/
def GetWordFrequencies (s : SearchServer) (document_id : Int) : List (List Char × ℚ) :=
  match AMap.find? document_id s.document_id_to_document_data with
  | some data => data.word_frequencies
  | none => []

/-- `SearchServer::ParseQueryWord`; `none` models returning `false`
(parse failure). -/
def ParseQueryWord (s : SearchServer) (text : List Char) : Option QueryWord :=
  match text with
  | [] => none
  | c :: rest =>
    let is_minus : Bool := c = '-'
    let text1 : List Char := if c = '-' then rest else c :: rest
    if text1.isEmpty then none
    else if text1.head? = some '-' then none
    else if !IsValidWord text1 then none
    else some ⟨text1, is_minus, s.IsStopWord text1⟩

/-- The loop body of `SearchServer::ParseQuery` over the token list. -/
def parseQueryLoop (s : SearchServer) : List (List Char) → Query → Option Query
  | [], acc => some acc
  | w :: rest, acc =>
    match s.ParseQueryWord w with
    | none => none
    | some query_word =>
      if query_word.is_stop then parseQueryLoop s rest acc
      else if query_word.is_minus then
        parseQueryLoop s rest ⟨acc.plus_words, insertSet query_word.data acc.minus_words⟩
      else
        parseQueryLoop s rest ⟨insertSet query_word.data acc.plus_words, acc.minus_words⟩

/-- `SearchServer::ParseQuery`: tokenize and classify; `none` models a
parse failure. -/
def ParseQuery (s : SearchServer) (text : List Char) : Option Query :=
  parseQueryLoop s (splitIntoWords text) ⟨[], []⟩

/-- One iteration of the indexing loop in `SearchServer::AddDocument`:
`word_to_document_id_to_term_frequency_[word][document_id] += Δ` and
`word_frequencies[word] += Δ`. -/
def addWordStep (document_id : Int) (inverse_word_count : ℚ)
    (acc : List (List Char × List (Int × ℚ)) × List (List Char × ℚ))
    (word : List Char) :
    List (List Char × List (Int × ℚ)) × List (List Char × ℚ) :=
  let inner := AMap.getD word [] acc.1
  (AMap.setVal word
      (AMap.setVal document_id (AMap.getD document_id 0 inner + inverse_word_count) inner)
      acc.1,
   AMap.setVal word (AMap.getD word 0 acc.2 + inverse_word_count) acc.2)

/-- `SearchServer::AddDocument`.  The `Option String` component is the
thrown `std::invalid_argument` message (`none` = normal return `true`);
all three validations precede every mutation, so on a throw the returned
state is the unchanged input state. -/
def AddDocument (s : SearchServer) (document_id : Int) (document : List Char)
    (status : DocumentStatus) (ratings : List Int) :
    Option String × SearchServer :=
  if document_id < 0 then (some "negative ids are not allowed", s)
  else if (AMap.find? document_id s.document_id_to_document_data).isSome then
    (some "repeating ids are not allowed", s)
  else if !IsValidWord document then
    (some "word in document contains unaccaptable symbol", s)
  else
    let words := s.SplitIntoWordsNoStop document
    let inverse_word_count : ℚ := 1 / (words.length : ℚ)
    let acc := words.foldl (addWordStep document_id inverse_word_count)
      (s.word_to_document_id_to_term_frequency, [])
    (none,
     { s with
       word_to_document_id_to_term_frequency := acc.1,
       document_ids := insertSet document_id s.document_ids,
       document_id_to_document_data :=
         AMap.emplace document_id
           ⟨ComputeAverageRating ratings, status, acc.2⟩
           s.document_id_to_document_data })

/-- The sequential `std::for_each(std::execution::seq, ...)` over the
collected inner maps: erase `document_id` from each, in order. -/
def eraseFromInnersSeq (document_id : Int) (inners : List (List (Int × ℚ))) :
    List (List (Int × ℚ)) :=
  inners.foldl (fun acc inner => acc ++ [AMap.eraseKey document_id inner]) []

/-- The parallel `std::for_each(std::execution::par, ...)`: each slot is
transformed independently of the others. -/
def eraseFromInnersPar (document_id : Int) (inners : List (List (Int × ℚ))) :
    List (List (Int × ℚ)) :=
  inners.map (AMap.eraseKey document_id)

/-- `SearchServer::RemoveDocument(document_id, policy)`.  The C++ code moves
the inner maps out, erases the id in each (under the chosen policy), moves
them back in the same key order and erases the term keys whose inner map
became empty; `.at` on the collected words is totalized with `AMap.getD`,
which agrees with the source whenever the key is present. -/
def RemoveDocument (s : SearchServer) (document_id : Int) (policy : Policy) :
    SearchServer :=
  if (AMap.find? document_id s.document_id_to_document_data).isSome = false then s
  else
    let words_and_frequencies := s.GetWordFrequencies document_id
    let id_to_frequency := words_and_frequencies.map
      (fun p => AMap.getD p.1 [] s.word_to_document_id_to_term_frequency)
    let erased :=
      match policy with
      | Policy.parallel => eraseFromInnersPar document_id id_to_frequency
      | Policy.sequential => eraseFromInnersSeq document_id id_to_frequency
    let inv1 := (words_and_frequencies.zip erased).foldl
      (fun inv p =>
        let inv2 := AMap.setVal p.1.1 p.2 inv
        if p.2.isEmpty then AMap.eraseKey p.1.1 inv2 else inv2)
      s.word_to_document_id_to_term_frequency
    { s with
      word_to_document_id_to_term_frequency := inv1,
      document_id_to_document_data :=
        AMap.eraseKey document_id s.document_id_to_document_data,
      document_ids := s.document_ids.filter (fun x => decide (x ≠ document_id)) }

/-- The `std::execution::sequenced_policy` overload of `RemoveDocument`. -/
def RemoveDocumentSeqTagged (s : SearchServer) (document_id : Int) : SearchServer :=
  s.RemoveDocument document_id Policy.sequential

/-- The `std::execution::parallel_policy` overload of `RemoveDocument`. -/
def RemoveDocumentParTagged (s : SearchServer) (document_id : Int) : SearchServer :=
  s.RemoveDocument document_id Policy.parallel

end SearchServer

/-! ## Ranking and matching (`search_server.h/cpp`) -/

/-- `kMaxResultDocumentCount = 5`. -/
def kMaxResultDocumentCount : Nat := 5

/-- `kAccuracy = 1e-6`. -/
def kAccuracy : ℚ := 1 / 1000000

/-- The comparator lambda passed to `std::sort` in
`SearchServer::FindTopDocuments`: `left` sorts before `right`. -/
def docBefore (left right : Document) : Bool :=
  if |left.relevance - right.relevance| < kAccuracy then
    decide (left.rating > right.rating)
  else
    decide (left.relevance > right.relevance)

/-- Ordered insertion with respect to `docBefore` (the building block of the
model of `std::sort`). -/
def orderedInsert (a : Document) : List Document → List Document
  | [] => [a]
  | b :: l => if docBefore a b then a :: b :: l else b :: orderedInsert a l

/-- The model of `std::sort` with the `docBefore` comparator: a sort that
produces a permutation ordered so that no adjacent pair is inverted, which
is the guarantee `std::sort` provides for the sorted range. -/
def sortDocs : List Document → List Document
  | [] => []
  | a :: l => orderedInsert a (sortDocs l)

namespace SearchServer

/-- `SearchServer::ComputeWordInverseDocumentFrequency`, parametrized by the
interpretation `log` of `std::log`. -/
def ComputeWordInverseDocumentFrequency (log : ℚ → ℚ) (s : SearchServer)
    (word : List Char) : ℚ :=
  log ((s.GetDocumentCount : ℚ) /
    ((AMap.getD word [] s.word_to_document_id_to_term_frequency).length : ℚ))

/-- The plus-word accumulation loop of `SearchServer::FindAllDocuments`:
`document_id_to_relevance[id] += tf * idf`. -/
def accumulatePlus (log : ℚ → ℚ) (s : SearchServer) (plus : List (List Char)) :
    List (Int × ℚ) :=
  plus.foldl
    (fun R word =>
      match AMap.find? word s.word_to_document_id_to_term_frequency with
      | none => R
      | some inner =>
        let idf := s.ComputeWordInverseDocumentFrequency log word
        inner.foldl
          (fun R p => AMap.setVal p.1 (AMap.getD p.1 0 R + p.2 * idf) R) R)
    []

/-- The minus-word veto loop of `SearchServer::FindAllDocuments`:
`document_id_to_relevance.erase(id)` for every id of every minus word. -/
def eraseMinus (s : SearchServer) (minus : List (List Char))
    (R : List (Int × ℚ)) : List (Int × ℚ) :=
  minus.foldl
    (fun R word =>
      match AMap.find? word s.word_to_document_id_to_term_frequency with
      | none => R
      | some inner => inner.foldl (fun R p => AMap.eraseKey p.1 R) R)
    R

/-- `SearchServer::FindAllDocuments`. -/
def FindAllDocuments (log : ℚ → ℚ) (s : SearchServer) (query : Query) :
    List Document :=
  let R := eraseMinus s query.minus_words (accumulatePlus log s query.plus_words)
  R.map (fun p =>
    { id := p.1, relevance := p.2,
      rating := (AMap.getD p.1 default s.document_id_to_document_data).rating })

/-- `SearchServer::FindTopDocuments(raw_query, predicate)`: parse, gather,
filter by the predicate, sort with the `docBefore` comparator, truncate to
`kMaxResultDocumentCount`; a parse failure throws `"invalid request"`. -/
def FindTopDocuments (log : ℚ → ℚ) (s : SearchServer) (raw_query : List Char)
    (predicate : Int → DocumentStatus → Int → Bool) :
    Except String (List Document) :=
  match s.ParseQuery raw_query with
  | none => Except.error "invalid request"
  | some query =>
    let matched_documents := s.FindAllDocuments log query
    let filtered_documents := matched_documents.filter (fun d =>
      let data := AMap.getD d.id default s.document_id_to_document_data
      predicate d.id data.status data.rating)
    Except.ok ((sortDocs filtered_documents).take kMaxResultDocumentCount)

/-- `SearchServer::FindTopDocuments(raw_query, status)`: the convenience
overload with the status-equality predicate. -/
def FindTopDocumentsByStatus (log : ℚ → ℚ) (s : SearchServer)
    (raw_query : List Char) (desired_status : DocumentStatus) :
    Except String (List Document) :=
  s.FindTopDocuments log raw_query
    (fun _ document_status _ => decide (document_status = desired_status))

/-- `SearchServer::FindTopDocuments(raw_query)` with the default
`DocumentStatus::ACTUAL`. -/
def FindTopDocumentsDefault (log : ℚ → ℚ) (s : SearchServer)
    (raw_query : List Char) : Except String (List Document) :=
  s.FindTopDocumentsByStatus log raw_query DocumentStatus.ACTUAL

/-- Errors observable from `SearchServer::MatchDocument`: the thrown
`"invalid request"` on a parse failure, or `std::out_of_range` from
`.at(document_id)` on an unknown id. -/
inductive MatchError where
  | invalidQuery
  | outOfRange
deriving DecidableEq, Repr

/-- `SearchServer::MatchDocument(raw_query, document_id, policy)`.  The
`policy` parameter is accepted and ignored, exactly as in the source. -/
def MatchDocument (s : SearchServer) (raw_query : List Char) (document_id : Int)
    (policy : Policy) : Except MatchError (List (List Char) × DocumentStatus) :=
  match s.ParseQuery raw_query with
  | none => Except.error MatchError.invalidQuery
  | some query =>
    let matched_words := query.plus_words.filter (fun word =>
      match AMap.find? word s.word_to_document_id_to_term_frequency with
      | none => false
      | some inner => (AMap.find? document_id inner).isSome)
    let has_minus := query.minus_words.any (fun word =>
      match AMap.find? word s.word_to_document_id_to_term_frequency with
      | none => false
      | some inner => (AMap.find? document_id inner).isSome)
    let final_words := if has_minus then [] else matched_words
    match AMap.find? document_id s.document_id_to_document_data with
    | none => Except.error MatchError.outOfRange
    | some data => Except.ok (final_words, data.status)

/-- The `std::execution::parallel_policy` overload of `MatchDocument`. -/
def MatchDocumentParTagged (s : SearchServer) (raw_query : List Char)
    (document_id : Int) : Except MatchError (List (List Char) × DocumentStatus) :=
  s.MatchDocument raw_query document_id Policy.parallel

/-- The `std::execution::sequenced_policy` overload of `MatchDocument`. -/
def MatchDocumentSeqTagged (s : SearchServer) (raw_query : List Char)
    (document_id : Int) : Except MatchError (List (List Char) × DocumentStatus) :=
  s.MatchDocument raw_query document_id Policy.sequential

/-- `SearchServer::SetStopWords`: split the configuration string with the
borrowed-view tokenizer, validate and insert each word; a throw aborts the
loop. -/
def SetStopWords (s : SearchServer) (text : List Char) :
    Except String SearchServer :=
  (splitIntoWordsView text).foldlM
    (fun st word =>
      if !IsValidWord word then Except.error "Bad stop word"
      else Except.ok { st with stop_words := insertSet word st.stop_words })
    s

end SearchServer

/-- The `SearchServer(const std::string&)` constructor: validate the whole
string, then `SetStopWords`. -/
def mkSearchServer (stop_words : List Char) : Except String SearchServer :=
  if !IsValidWord stop_words then
    Except.error "stop word contains unaccaptable symbol"
  else SearchServer.init.SetStopWords stop_words

/-! ## Batch executor (`process_queries.cpp/h`) -/

/-- `ProcessQueries`: evaluate every query against the shared index; output
slot `i` holds the result of query `i` (`std::transform` over disjoint
slots).  A thrown per-query error aborts the whole batch. -/
def ProcessQueries (log : ℚ → ℚ) (s : SearchServer)
    (queries : List (List Char)) : Except String (List (List Document)) :=
  queries.mapM (fun q => s.FindTopDocumentsDefault log q)

/-- A reduction tree: the (implementation-chosen) bracketing with which
`std::reduce(std::execution::par, ...)` combines the per-query result
lists.  Leaves are the operands in their sequence order. -/
inductive RTree (α : Type) where
  | leaf (a : α)
  | node (l r : RTree α)

/-- The operands of a reduction tree, in order. -/
def RTree.leaves {α : Type} : RTree α → List α
  | .leaf a => [a]
  | .node l r => l.leaves ++ r.leaves

/-- Evaluate a reduction tree with a binary operation. -/
def RTree.eval {α : Type} (op : α → α → α) : RTree α → α
  | .leaf a => a
  | .node l r => op (l.eval op) (r.eval op)

/-- `ProcessQueriesJoined`: flatten the per-query results of
`ProcessQueries` with the appending reduction (`std::reduce` with an empty
initial vector and the push-back-all lambda); the sequential backend
computes exactly this left fold. -/
def ProcessQueriesJoined (log : ℚ → ℚ) (s : SearchServer)
    (queries : List (List Char)) : Except String (List Document) :=
  (ProcessQueries log s queries).map
    (fun lists => lists.foldl (fun a b => a ++ b) [])

/-- Adjacent-pair order relation of the sorted output: the later document
does not sort strictly before the earlier one. -/
def notInverted (a b : Document) : Prop := docBefore b a = false

/-! ## Query-parse failure characterization -/

/-- Strip one leading minus sign from a query token. -/
def stripMinus : List Char → List Char
  | [] => []
  | c :: rest => if c = '-' then rest else c :: rest

/-- The lexical invalidity condition of the spec: a token is invalid when it
is empty after stripping a leading minus, when its first remaining character
is again a minus, or when it contains a control character. -/
def badQueryToken (w : List Char) : Bool :=
  (stripMinus w).isEmpty
    || decide ((stripMinus w).head? = some '-')
    || (stripMinus w).any isControlChar

/-! ## The reachable-state invariant behind claim C1 -/

/-- `idLiveWith s w id`: document `id` is live and its per-document map
contains the term `w`. -/
def idLiveWith (s : SearchServer) (w : List Char) (id : Int) : Bool :=
  match AMap.find? id s.document_id_to_document_data with
  | none => false
  | some data => (AMap.find? w data.word_frequencies).isSome

/-- The inductive state invariant: live ids and forward-map keys agree, the
inverted index has no duplicate term keys, and every id mentioned by an
inner map is live with that term recorded in its per-document map. -/
def StateInv (s : SearchServer) : Prop :=
  (∀ id ∈ s.document_ids,
      (AMap.find? id s.document_id_to_document_data).isSome = true) ∧
  (∀ p ∈ s.document_id_to_document_data, p.1 ∈ s.document_ids) ∧
  AMap.keysNodup s.word_to_document_id_to_term_frequency ∧
  (∀ p ∈ s.word_to_document_id_to_term_frequency, ∀ q ∈ p.2,
      idLiveWith s p.1 q.1 = true)

/-- The invariant carried through the indexing fold of `AddDocument`: any
id mentioned by the accumulated inverted index is either the new document
(and then the term is already in the accumulated per-document map) or an
id that was live with that term before the insertion. -/
def addQ (s : SearchServer) (document_id : Int)
    (acc : List (List Char × List (Int × ℚ)) × List (List Char × ℚ)) : Prop :=
  ∀ p ∈ acc.1, ∀ q ∈ p.2,
    (q.1 = document_id → (AMap.find? p.1 acc.2).isSome = true) ∧
    (q.1 ≠ document_id → idLiveWith s p.1 q.1 = true)

/-- States reachable by construction and successful public mutations. -/
inductive Reachable : SearchServer → Prop where
  | init : Reachable SearchServer.init
  | construct (stop_words : List Char) (s : SearchServer) :
      mkSearchServer stop_words = Except.ok s → Reachable s
  | add (s : SearchServer) (document_id : Int) (document : List Char)
      (status : DocumentStatus) (ratings : List Int) (s2 : SearchServer) :
      Reachable s →
      s.AddDocument document_id document status ratings = (none, s2) →
      Reachable s2
  | remove (s : SearchServer) (document_id : Int) (policy : Policy) :
      Reachable s → Reachable (s.RemoveDocument document_id policy)

/-! ## Witness fixtures -/

/-- A tiny concrete index: one live document (id 1, rating 1, status
`ACTUAL`) containing exactly the term "b". -/
def smallServer : SearchServer :=
  ⟨[], [(['b'], [(1, 1)])], [(1, ⟨1, DocumentStatus.ACTUAL, [(['b'], 1)]⟩)], [1]⟩

/-- A server configured with the single stop word "a". -/
def stopServer : SearchServer := ⟨[['a']], [], [], []⟩

namespace AMap

variable {κ : Type} {ν : Type} [DecidableEq κ]

theorem find?_nil (k : κ) : find? k ([] : List (κ × ν)) = none := rfl

theorem find?_cons (k : κ) (p : κ × ν) (rest : List (κ × ν)) :
    find? k (p :: rest) = if p.1 = k then some p.2 else find? k rest := rfl

theorem find?_setVal_self (k : κ) (v : ν) (m : List (κ × ν)) :
    find? k (setVal k v m) = some v := by
  induction m with
  | nil => simp [setVal, find?]
  | cons p rest ih =>
    by_cases h : p.1 = k
    · simp [setVal, h, find?]
    · simp [setVal, h, find?, ih]

theorem eraseKey_cons (k : κ) (p : κ × ν) (rest : List (κ × ν)) :
    eraseKey k (p :: rest) =
      if p.1 = k then eraseKey k rest else p :: eraseKey k rest := by
  by_cases hp : p.1 = k <;> simp [eraseKey, List.filter_cons, hp]

theorem find?_setVal_ne (k k' : κ) (v : ν) (m : List (κ × ν)) (h : k' ≠ k) :
    find? k' (setVal k v m) = find? k' m := by
  have hk : ¬ k = k' := fun hh => h hh.symm
  induction m with
  | nil => simp [setVal, find?, hk]
  | cons p rest ih =>
    by_cases hp : p.1 = k
    · have hpk : ¬ p.1 = k' := fun hh => hk (hp.symm.trans hh)
      simp [setVal, hp, find?, hk, hpk]
    · simp [setVal, hp, find?, ih]

theorem isSome_find?_setVal (k k' : κ) (v : ν) (m : List (κ × ν))
    (h : (find? k' m).isSome = true) :
    (find? k' (setVal k v m)).isSome = true := by
  by_cases hk : k' = k
  · subst hk; simp [find?_setVal_self]
  · rwa [find?_setVal_ne k k' v m hk]

theorem find?_eraseKey_self (k : κ) (m : List (κ × ν)) :
    find? k (eraseKey k m) = none := by
  induction m with
  | nil => rfl
  | cons p rest ih =>
    rw [eraseKey_cons]
    by_cases h : p.1 = k
    · simp [h, ih]
    · simp [h, find?, ih]

theorem keysNodup_cons {p : κ × ν} {rest : List (κ × ν)} :
    keysNodup (p :: rest) ↔ p.1 ∉ keys rest ∧ keysNodup rest := by
  simp [keysNodup, keys, List.nodup_cons]

theorem find?_eraseKey_ne (k k' : κ) (m : List (κ × ν)) (h : k' ≠ k) :
    find? k' (eraseKey k m) = find? k' m := by
  have hk : ¬ k = k' := fun hh => h hh.symm
  induction m with
  | nil => rfl
  | cons p rest ih =>
    rw [eraseKey_cons]
    by_cases hp : p.1 = k
    · have hpk : ¬ p.1 = k' := fun hh => hk (hp.symm.trans hh)
      simp [hp, find?, hpk, ih, hk]
    · simp [hp, find?, ih]

theorem mem_setVal {p : κ × ν} (k : κ) (v : ν) {m : List (κ × ν)}
    (h : p ∈ setVal k v m) : p = (k, v) ∨ p ∈ m := by
  induction m with
  | nil => simpa [setVal] using h
  | cons q rest ih =>
    by_cases hq : q.1 = k
    · simp only [setVal, hq, if_pos] at h
      rcases List.mem_cons.mp h with h | h
      · exact Or.inl h
      · exact Or.inr (List.mem_cons_of_mem _ h)
    · simp only [setVal, hq, if_neg, not_false_iff] at h
      rcases List.mem_cons.mp h with h | h
      · exact Or.inr (h ▸ List.mem_cons_self _ _)
      · rcases ih h with h | h
        · exact Or.inl h
        · exact Or.inr (List.mem_cons_of_mem _ h)

theorem find?_mem {k : κ} {v : ν} {m : List (κ × ν)}
    (h : find? k m = some v) : (k, v) ∈ m := by
  induction m with
  | nil => simp [find?] at h
  | cons p rest ih =>
    by_cases hp : p.1 = k
    · simp only [find?, hp, if_pos, Option.some.injEq] at h
      subst h
      have : p = (k, p.2) := by
        cases p; simp_all
      exact this ▸ List.mem_cons_self _ _
    · simp only [find?, hp, if_neg, not_false_iff] at h
      exact List.mem_cons_of_mem _ (ih h)

theorem isSome_find?_of_mem {p : κ × ν} {m : List (κ × ν)}
    (h : p ∈ m) : (find? p.1 m).isSome = true := by
  induction m with
  | nil => simp at h
  | cons q rest ih =>
    rcases List.mem_cons.mp h with h | h
    · subst h; simp [find?]
    · by_cases hq : q.1 = p.1
      · simp [find?, hq]
      · simpa [find?, hq] using ih h

theorem isSome_find?_iff_mem_keys {k : κ} {m : List (κ × ν)} :
    (find? k m).isSome = true ↔ k ∈ keys m := by
  induction m with
  | nil => simp [find?, keys]
  | cons p rest ih =>
    by_cases hp : p.1 = k
    · subst hp
      simp [find?, keys]
    · simp only [find?, hp, if_neg, not_false_iff, keys, List.map_cons, List.mem_cons]
      rw [ih]
      constructor
      · exact fun h => Or.inr h
      · rintro (h | h)
        · exact absurd h.symm hp
        · exact h

theorem find?_append_some {k : κ} {v : ν} {m m' : List (κ × ν)}
    (h : find? k m = some v) : find? k (m ++ m') = some v := by
  induction m with
  | nil => simp [find?] at h
  | cons p rest ih =>
    by_cases hp : p.1 = k
    · simpa [find?, hp] using h
    · simp only [find?, hp, if_neg, not_false_iff] at h ⊢
      exact ih h

theorem find?_append_none {k : κ} {m m' : List (κ × ν)}
    (h : find? k m = none) : find? k (m ++ m') = find? k m' := by
  induction m with
  | nil => simp
  | cons p rest ih =>
    by_cases hp : p.1 = k
    · simp [find?, hp] at h
    · simp only [find?, hp, if_neg, not_false_iff] at h ⊢
      exact ih h

theorem keysNodup_nil : keysNodup ([] : List (κ × ν)) := by
  simp [keysNodup, keys]

theorem mem_keys_setVal {k' : κ} (k : κ) (v : ν) {m : List (κ × ν)}
    (h : k' ∈ keys (setVal k v m)) : k' = k ∨ k' ∈ keys m := by
  rcases List.mem_map.mp h with ⟨q, hq, hq1⟩
  rcases mem_setVal k v hq with hq | hq
  · exact Or.inl (by simp [← hq1, hq])
  · exact Or.inr (hq1 ▸ List.mem_map_of_mem Prod.fst hq)

theorem keysNodup_setVal (k : κ) (v : ν) {m : List (κ × ν)}
    (h : keysNodup m) : keysNodup (setVal k v m) := by
  induction m with
  | nil => simp [setVal, keysNodup, keys]
  | cons p rest ih =>
    rcases keysNodup_cons.mp h with ⟨hhead, hrest⟩
    by_cases hp : p.1 = k
    · subst hp
      have hset : setVal p.1 v (p :: rest) = (p.1, v) :: rest := by simp [setVal]
      rw [hset]
      exact keysNodup_cons.mpr ⟨by simpa using hhead, hrest⟩
    · simp only [setVal, hp, if_neg, not_false_iff]
      refine keysNodup_cons.mpr ⟨?_, ih hrest⟩
      intro hmem
      rcases mem_keys_setVal k v hmem with h1 | h1
      · exact hp h1
      · exact hhead h1

theorem keysNodup_eraseKey (k : κ) {m : List (κ × ν)}
    (h : keysNodup m) : keysNodup (eraseKey k m) := by
  induction m with
  | nil => simpa [eraseKey] using h
  | cons p rest ih =>
    rcases keysNodup_cons.mp h with ⟨hhead, hrest⟩
    rw [eraseKey_cons]
    by_cases hp : p.1 = k
    · simp only [hp, if_pos]
      exact ih hrest
    · simp only [hp, if_neg, not_false_iff]
      refine keysNodup_cons.mpr ⟨?_, ih hrest⟩
      intro hmem
      rcases List.mem_map.mp hmem with ⟨q, hq, hq1⟩
      exact hhead (hq1 ▸ List.mem_map_of_mem Prod.fst (List.mem_of_mem_filter hq))

theorem length_eraseKey {k : κ} {v : ν} {m : List (κ × ν)}
    (hnd : keysNodup m) (h : find? k m = some v) :
    (eraseKey k m).length + 1 = m.length := by
  induction m with
  | nil => simp [find?] at h
  | cons p rest ih =>
    rcases keysNodup_cons.mp hnd with ⟨hhead, hrest⟩
    rw [eraseKey_cons]
    by_cases hp : p.1 = k
    · subst hp
      have hnone : eraseKey p.1 rest = rest := by
        apply List.filter_eq_self.mpr
        intro q hq
        simp only [decide_eq_true_eq]
        intro hq1
        exact hhead (hq1 ▸ List.mem_map_of_mem Prod.fst hq)
      simp [hnone]
    · simp only [find?, hp, if_neg, not_false_iff] at h
      have := ih hrest h
      simp only [hp, if_neg, not_false_iff, List.length_cons]
      omega

theorem mem_of_mem_eraseKey {k : κ} {p : κ × ν} {m : List (κ × ν)}
    (h : p ∈ eraseKey k m) : p ∈ m ∧ p.1 ≠ k := by
  have := List.mem_filter.mp h
  exact ⟨this.1, by simpa using this.2⟩

theorem mem_entry_of_find?_eq_some_rev {k : κ} {v : ν} {m : List (κ × ν)}
    (hnd : keysNodup m) (h : (k, v) ∈ m) : find? k m = some v := by
  induction m with
  | nil => simp at h
  | cons p rest ih =>
    simp only [keysNodup, keys, List.map_cons, List.nodup_cons] at hnd
    rcases List.mem_cons.mp h with h | h
    · simp [find?, ← h]
    · by_cases hp : p.1 = k
      · exact absurd (hp ▸ List.mem_map_of_mem Prod.fst h) (by simpa [hp] using hnd.1)
      · simp only [find?, hp, if_neg, not_false_iff]
        exact ih hnd.2 h

end AMap

theorem segmentsBy_ne_nil (p : Char → Bool) (l : List Char) : segmentsBy p l ≠ [] := by
  cases l with
  | nil => simp [segmentsBy]
  | cons c cs =>
    by_cases h : p c
    · simp [segmentsBy, h]
    · simp only [segmentsBy, h, if_neg, not_false_iff]
      cases hs : segmentsBy p cs with
      | nil => exact absurd hs (segmentsBy_ne_nil p cs)
      | cons s rest => simp [List.modifyHead]

theorem consHead_modifyHead (pre : List Char) (c : Char) {segs : List (List Char)}
    (h : segs ≠ []) :
    consHead pre (segs.modifyHead (c :: ·)) = consHead (pre ++ [c]) segs := by
  cases segs with
  | nil => exact absurd rfl h
  | cons s rest => simp [consHead, List.modifyHead]

theorem isEmpty_false_of_ne_nil {α : Type} {l : List α} (h : l ≠ []) :
    l.isEmpty = false := by
  cases l with
  | nil => exact absurd rfl h
  | cons a as => rfl

theorem filter_consHead_nil (segs : List (List Char)) :
    (consHead [] segs).filter (fun w => !w.isEmpty) =
      segs.filter (fun w => !w.isEmpty) := by
  cases segs with
  | nil => simp [consHead]
  | cons s rest => simp [consHead]

theorem splitViewAux_eq (l : List Char) : ∀ acc : List Char,
    splitViewAux l acc = consHead acc.reverse (segmentsBy (fun c => c == ' ') l) := by
  induction l with
  | nil => intro acc; simp [splitViewAux, segmentsBy, consHead]
  | cons c cs ih =>
    intro acc
    by_cases h : c == ' '
    · rw [show splitViewAux (c :: cs) acc = acc.reverse :: splitViewAux cs [] by
        simp [splitViewAux, h]]
      rw [show segmentsBy (fun c => c == ' ') (c :: cs)
            = [] :: segmentsBy (fun c => c == ' ') cs by
        simp [segmentsBy, h]]
      rw [ih []]
      cases hs : segmentsBy (fun c => c == ' ') cs with
      | nil => exact absurd hs (segmentsBy_ne_nil _ cs)
      | cons s rest => simp [consHead]
    · rw [show splitViewAux (c :: cs) acc = splitViewAux cs (c :: acc) by
        simp [splitViewAux, h]]
      rw [show segmentsBy (fun c => c == ' ') (c :: cs)
            = (segmentsBy (fun c => c == ' ') cs).modifyHead (c :: ·) by
        simp [segmentsBy, h]]
      rw [consHead_modifyHead _ _ (segmentsBy_ne_nil _ cs), ih (c :: acc)]
      simp

/-- The borrowed-view tokenizer returns exactly the space-separated segments,
empty segments included. -/
theorem splitIntoWordsView_eq_segments (l : List Char) :
    splitIntoWordsView l = segmentsBy (fun c => c == ' ') l := by
  rw [splitIntoWordsView, splitViewAux_eq l []]
  cases hs : segmentsBy (fun c => c == ' ') l with
  | nil => exact absurd hs (segmentsBy_ne_nil _ l)
  | cons s rest => simp [consHead]

theorem splitIntoWordsAux_eq (l : List Char) : ∀ acc : List Char,
    splitIntoWordsAux l acc =
      (consHead acc.reverse (segmentsBy isCppSpace l)).filter (fun w => !w.isEmpty) := by
  induction l with
  | nil =>
    intro acc
    simp only [splitIntoWordsAux, segmentsBy, consHead, List.append_nil]
    by_cases h : acc.isEmpty
    · have : acc = [] := by simpa [List.isEmpty_iff] using h
      simp [this]
    · have hne : acc ≠ [] := fun hh => by simp [hh] at h
      have : acc.reverse.isEmpty = false :=
        isEmpty_false_of_ne_nil (by simpa using hne)
      simp [h, List.filter, this]
  | cons c cs ih =>
    intro acc
    by_cases h : isCppSpace c
    · rw [show segmentsBy isCppSpace (c :: cs) = [] :: segmentsBy isCppSpace cs by
        simp [segmentsBy, h]]
      by_cases ha : acc.isEmpty
      · have hae : acc = [] := by simpa [List.isEmpty_iff] using ha
        rw [show splitIntoWordsAux (c :: cs) acc = splitIntoWordsAux cs [] by
          simp [splitIntoWordsAux, h, ha]]
        rw [ih [], hae]
        simp only [List.reverse_nil]
        rw [filter_consHead_nil]
        simp [consHead, List.filter_cons]
      · have hne : acc ≠ [] := fun hh => by simp [hh] at ha
        have hane : acc.reverse.isEmpty = false :=
          isEmpty_false_of_ne_nil (by simpa using hne)
        rw [show splitIntoWordsAux (c :: cs) acc = acc.reverse :: splitIntoWordsAux cs [] by
          simp [splitIntoWordsAux, h, ha]]
        rw [ih []]
        simp only [List.reverse_nil]
        rw [filter_consHead_nil]
        simp [consHead, List.filter_cons, hane]
    · rw [show splitIntoWordsAux (c :: cs) acc = splitIntoWordsAux cs (c :: acc) by
        simp [splitIntoWordsAux, h]]
      rw [show segmentsBy isCppSpace (c :: cs)
            = (segmentsBy isCppSpace cs).modifyHead (c :: ·) by
        simp [segmentsBy, h]]
      rw [consHead_modifyHead _ _ (segmentsBy_ne_nil _ cs), ih (c :: acc)]
      simp

/-- The owning-string tokenizer returns exactly the nonempty segments: the
maximal runs of non-whitespace bytes, in order. -/
theorem splitIntoWords_eq_segments (l : List Char) :
    splitIntoWords l = (segmentsBy isCppSpace l).filter (fun w => !w.isEmpty) := by
  rw [splitIntoWords, splitIntoWordsAux_eq l []]
  cases hs : segmentsBy isCppSpace l with
  | nil => exact absurd hs (segmentsBy_ne_nil _ l)
  | cons s rest => simp [consHead]

/-- The owning-string tokenizer never emits an empty token. -/
theorem splitIntoWords_ne_nil {l w : List Char} (h : w ∈ splitIntoWords l) : w ≠ [] := by
  rw [splitIntoWords_eq_segments] at h
  have := (List.mem_filter.mp h).2
  simpa [List.isEmpty_iff] using this

/-! ## Properties of the sort comparator and the sort -/

/-- The comparator is asymmetric (it is the strictness the sorted-range
guarantee of `std::sort` rests on). -/
theorem docBefore_asymm {a b : Document} (h : docBefore a b = true) :
    docBefore b a = false := by
  unfold docBefore at h ⊢
  rw [abs_sub_comm] at *
  by_cases hc : |a.relevance - b.relevance| < kAccuracy
  · rw [abs_sub_comm] at hc
    simp only [hc, if_pos, decide_eq_true_eq] at h
    rw [abs_sub_comm] at hc
    simp only [hc, if_pos, decide_eq_false_iff_not]
    omega
  · rw [abs_sub_comm] at hc
    simp only [hc, if_neg, not_false_iff, decide_eq_true_eq] at h
    rw [abs_sub_comm] at hc
    simp only [hc, if_neg, not_false_iff, decide_eq_false_iff_not]
    exact not_lt.mpr (le_of_lt h)

theorem head?_orderedInsert (a : Document) (l : List Document) :
    (orderedInsert a l).head? = some a ∨ (orderedInsert a l).head? = l.head? := by
  cases l with
  | nil => exact Or.inl rfl
  | cons b t =>
    by_cases h : docBefore a b
    · simp [orderedInsert, h]
    · simp [orderedInsert, h]

theorem chain'_orderedInsert (a : Document) (l : List Document)
    (h : List.Chain' notInverted l) :
    List.Chain' notInverted (orderedInsert a l) := by
  induction l with
  | nil => simp [orderedInsert]
  | cons b t ih =>
    by_cases hab : docBefore a b
    · rw [show orderedInsert a (b :: t) = a :: b :: t by simp [orderedInsert, hab]]
      exact List.chain'_cons.mpr ⟨docBefore_asymm hab, h⟩
    · rw [show orderedInsert a (b :: t) = b :: orderedInsert a t by
        simp [orderedInsert, hab]]
      rcases List.chain'_cons'.mp h with ⟨hhead, htail⟩
      refine List.chain'_cons'.mpr ⟨?_, ih htail⟩
      intro y hy
      rcases head?_orderedInsert a t with hcase | hcase
      · rw [hcase] at hy
        cases hy
        exact Bool.eq_false_iff.mpr (fun hh => hab (by simpa using hh))
      · rw [hcase] at hy
        exact hhead y hy

theorem chain'_sortDocs (l : List Document) :
    List.Chain' notInverted (sortDocs l) := by
  induction l with
  | nil => exact List.chain'_nil
  | cons a t ih => exact chain'_orderedInsert a (sortDocs t) ih

theorem chain'_take {α : Type} {R : α → α → Prop} :
    ∀ (n : Nat) (l : List α), List.Chain' R l → List.Chain' R (l.take n) := by
  intro n
  induction n with
  | zero => intro l _; simp
  | succ m ih =>
    intro l h
    cases l with
    | nil => simp
    | cons a t =>
      rw [List.take_cons_succ]
      rcases List.chain'_cons'.mp h with ⟨hhead, htail⟩
      refine List.chain'_cons'.mpr ⟨?_, ih t htail⟩
      intro y hy
      apply hhead
      cases t with
      | nil => simp at hy
      | cons b u =>
        cases m with
        | zero => simp at hy
        | succ k =>
          rw [List.take_cons_succ] at hy
          simpa using hy

theorem mem_orderedInsert {x a : Document} {l : List Document}
    (h : x ∈ orderedInsert a l) : x = a ∨ x ∈ l := by
  induction l with
  | nil => simpa [orderedInsert] using h
  | cons b t ih =>
    by_cases hab : docBefore a b
    · rw [show orderedInsert a (b :: t) = a :: b :: t by simp [orderedInsert, hab]] at h
      rcases List.mem_cons.mp h with h | h
      · exact Or.inl h
      · exact Or.inr h
    · rw [show orderedInsert a (b :: t) = b :: orderedInsert a t by
        simp [orderedInsert, hab]] at h
      rcases List.mem_cons.mp h with h | h
      · exact Or.inr (h ▸ List.mem_cons_self _ _)
      · rcases ih h with h | h
        · exact Or.inl h
        · exact Or.inr (List.mem_cons_of_mem _ h)

theorem mem_sortDocs {x : Document} {l : List Document}
    (h : x ∈ sortDocs l) : x ∈ l := by
  induction l with
  | nil => simpa [sortDocs] using h
  | cons a t ih =>
    rcases mem_orderedInsert h with h | h
    · exact h ▸ List.mem_cons_self _ _
    · exact List.mem_cons_of_mem _ (ih h)

/-- The adjacent-pair relation implies the relation stated in the spec:
strictly greater relevance, or relevance within `1e-6` and
non-increasing rating. -/
theorem notInverted_implies_spec {a b : Document} (h : notInverted a b) :
    b.relevance < a.relevance ∨
      (|a.relevance - b.relevance| < kAccuracy ∧ b.rating ≤ a.rating) := by
  unfold notInverted docBefore at h
  by_cases hc : |a.relevance - b.relevance| < kAccuracy
  · rw [abs_sub_comm] at hc
    simp only [hc, if_pos, decide_eq_false_iff_not] at h
    rw [abs_sub_comm] at hc
    exact Or.inr ⟨hc, not_lt.mp h⟩
  · rw [abs_sub_comm] at hc
    simp only [hc, if_neg, not_false_iff, decide_eq_false_iff_not] at h
    rw [abs_sub_comm] at hc
    have hle : b.relevance ≤ a.relevance := not_lt.mp h
    have hne : b.relevance ≠ a.relevance := by
      intro hh
      exact hc (by simp [hh, kAccuracy])
    exact Or.inl (lt_of_le_of_ne hle hne)

theorem not_isValidWord (l : List Char) : (!IsValidWord l) = l.any isControlChar := by
  simp [IsValidWord]

theorem parseQueryWord_none_iff (s : SearchServer) (w : List Char) :
    s.ParseQueryWord w = none ↔ badQueryToken w = true := by
  cases w with
  | nil => simp [SearchServer.ParseQueryWord, badQueryToken, stripMinus]
  | cons c rest =>
    by_cases hc : c = '-'
    · subst hc
      simp only [SearchServer.ParseQueryWord, badQueryToken, stripMinus, if_pos]
      by_cases h1 : rest.isEmpty
      · simp [h1]
      · by_cases h2 : rest.head? = some '-'
        · simp [h1, h2]
        · by_cases h3 : rest.any isControlChar
          · have hv : (!IsValidWord rest) = true := by rw [not_isValidWord, h3]
            simp [h1, h2, hv, h3]
          · have hv : (!IsValidWord rest) = false := by
              rw [not_isValidWord]
              exact Bool.not_eq_true _ ▸ (by simpa using h3)
            simp [h1, h2, hv, h3]
    · have h1 : (c :: rest).isEmpty = false := rfl
      have h2 : ¬ ((c :: rest).head? = some '-') := by
        simp [List.head?, hc]
      simp only [SearchServer.ParseQueryWord, badQueryToken, stripMinus, hc, if_neg,
        not_false_iff, h1, h2]
      by_cases h3 : (c :: rest).any isControlChar
      · have hv : (!IsValidWord (c :: rest)) = true := by rw [not_isValidWord, h3]
        simp [h2, hv, h3]
      · have hv : (!IsValidWord (c :: rest)) = false := by
          rw [not_isValidWord]
          simpa using h3
        simp [h2, hv, h3]

theorem parseQueryLoop_none_iff (s : SearchServer) :
    ∀ (ws : List (List Char)) (acc : Query),
      s.parseQueryLoop ws acc = none ↔ ∃ w ∈ ws, badQueryToken w = true := by
  intro ws
  induction ws with
  | nil => intro acc; simp [SearchServer.parseQueryLoop]
  | cons w rest ih =>
    intro acc
    cases hw : s.ParseQueryWord w with
    | none =>
      have hbad := (parseQueryWord_none_iff s w).mp hw
      simp only [SearchServer.parseQueryLoop, hw]
      simp only [List.mem_cons, true_iff]
      exact ⟨w, Or.inl rfl, hbad⟩
    | some qw =>
      have hgood : ¬ badQueryToken w = true := by
        intro hb
        rw [(parseQueryWord_none_iff s w).mpr hb] at hw
        cases hw
      have hexists : ∀ acc2 : Query,
          (s.parseQueryLoop rest acc2 = none ↔
            ∃ x ∈ w :: rest, badQueryToken x = true) := by
        intro acc2
        rw [ih acc2]
        constructor
        · rintro ⟨x, hx, hbx⟩; exact ⟨x, List.mem_cons_of_mem _ hx, hbx⟩
        · rintro ⟨x, hx, hbx⟩
          rcases List.mem_cons.mp hx with hx | hx
          · exact absurd (hx ▸ hbx) hgood
          · exact ⟨x, hx, hbx⟩
      by_cases hstop : qw.is_stop
      · rw [show s.parseQueryLoop (w :: rest) acc = s.parseQueryLoop rest acc by
          simp [SearchServer.parseQueryLoop, hw, hstop]]
        exact hexists acc
      · have hstop' : qw.is_stop = false := by simpa using hstop
        by_cases hminus : qw.is_minus
        · rw [show s.parseQueryLoop (w :: rest) acc
              = s.parseQueryLoop rest
                  ⟨acc.plus_words, insertSet qw.data acc.minus_words⟩ by
            simp [SearchServer.parseQueryLoop, hw, hstop', hminus]]
          exact hexists _
        · have hminus' : qw.is_minus = false := by simpa using hminus
          rw [show s.parseQueryLoop (w :: rest) acc
              = s.parseQueryLoop rest
                  ⟨insertSet qw.data acc.plus_words, acc.minus_words⟩ by
            simp [SearchServer.parseQueryLoop, hw, hstop', hminus']]
          exact hexists _

theorem parseQuery_none_iff (s : SearchServer) (text : List Char) :
    s.ParseQuery text = none ↔
      ∃ w ∈ splitIntoWords text, badQueryToken w = true := by
  exact parseQueryLoop_none_iff s (splitIntoWords text) ⟨[], []⟩

/-! ## The minus-word veto erases ids for good -/

theorem eraseFold_none_preserved {k : Int} {inner : List (Int × ℚ)}
    {R : List (Int × ℚ)} (h : AMap.find? k R = none) :
    AMap.find? k (inner.foldl (fun R p => AMap.eraseKey p.1 R) R) = none := by
  induction inner generalizing R with
  | nil => simpa using h
  | cons p rest ih =>
    simp only [List.foldl_cons]
    apply ih
    by_cases hp : k = p.1
    · rw [hp]; exact AMap.find?_eraseKey_self p.1 R
    · rw [AMap.find?_eraseKey_ne p.1 k R hp]; exact h

theorem eraseFold_mem_none {k : Int} {inner : List (Int × ℚ)}
    {R : List (Int × ℚ)} (h : (AMap.find? k inner).isSome = true) :
    AMap.find? k (inner.foldl (fun R p => AMap.eraseKey p.1 R) R) = none := by
  induction inner generalizing R with
  | nil => simp [AMap.find?] at h
  | cons p rest ih =>
    simp only [List.foldl_cons]
    by_cases hp : p.1 = k
    · subst hp
      apply eraseFold_none_preserved
      exact AMap.find?_eraseKey_self p.1 R
    · apply ih
      simpa [AMap.find?, hp] using h

theorem eraseMinus_none_preserved {s : SearchServer} {minus : List (List Char)}
    {k : Int} {R : List (Int × ℚ)} (h : AMap.find? k R = none) :
    AMap.find? k (SearchServer.eraseMinus s minus R) = none := by
  induction minus generalizing R with
  | nil => simpa [SearchServer.eraseMinus] using h
  | cons w rest ih =>
    simp only [SearchServer.eraseMinus, List.foldl_cons]
    cases hw : AMap.find? w s.word_to_document_id_to_term_frequency with
    | none => exact ih (by simpa [SearchServer.eraseMinus, hw] using h)
    | some inner =>
      have h2 : AMap.find? k (inner.foldl (fun R p => AMap.eraseKey p.1 R) R) = none :=
        eraseFold_none_preserved h
      exact ih h2

theorem eraseMinus_erases {s : SearchServer} {minus : List (List Char)}
    {w : List Char} {inner : List (Int × ℚ)} {k : Int} {R : List (Int × ℚ)}
    (hw : w ∈ minus)
    (hkey : AMap.find? w s.word_to_document_id_to_term_frequency = some inner)
    (hmem : (AMap.find? k inner).isSome = true) :
    AMap.find? k (SearchServer.eraseMinus s minus R) = none := by
  induction minus generalizing R with
  | nil => simp at hw
  | cons x rest ih =>
    simp only [SearchServer.eraseMinus, List.foldl_cons]
    rcases List.mem_cons.mp hw with hx | hx
    · subst hx
      rw [hkey]
      have h1 : AMap.find? k (inner.foldl (fun R p => AMap.eraseKey p.1 R) R) = none :=
        eraseFold_mem_none hmem
      exact eraseMinus_none_preserved h1
    · cases hx2 : AMap.find? x s.word_to_document_id_to_term_frequency with
      | none => exact ih hx
      | some inner2 => exact ih hx

/-! ## RemoveDocument: policy equivalence and write-back characterization -/

theorem foldl_append_singleton {α β : Type} (f : α → β) (v : List α) :
    ∀ acc : List β, v.foldl (fun acc x => acc ++ [f x]) acc = acc ++ v.map f := by
  induction v with
  | nil => intro acc; simp
  | cons x rest ih =>
    intro acc
    simp only [List.foldl_cons, List.map_cons]
    rw [ih (acc ++ [f x])]
    simp

/-- The sequential and the parallel `for_each` over the collected inner maps
compute the same vector: the sequential one appends the transformed slots in
order, the parallel one transforms every slot independently. -/
theorem eraseFromInnersSeq_eq_par (document_id : Int)
    (inners : List (List (Int × ℚ))) :
    SearchServer.eraseFromInnersSeq document_id inners
      = SearchServer.eraseFromInnersPar document_id inners := by
  unfold SearchServer.eraseFromInnersSeq SearchServer.eraseFromInnersPar
  simpa using foldl_append_singleton (AMap.eraseKey document_id) inners []

theorem zip_map_self {α β : Type} (g : α → β) (l : List α) :
    l.zip (l.map g) = l.map (fun x => (x, g x)) := by
  induction l with
  | nil => rfl
  | cons x rest ih => simp [ih]

/-- Characterization of the write-back fold of `RemoveDocument`: a key in
the processed set is mapped to its erased inner map (or dropped when that
map became empty); every other key keeps its old binding. -/
theorem removeFold_find? (gk : List Char → List (Int × ℚ))
    (pairs : List (List Char × ℚ)) (w' : List Char) :
    ∀ inv : List (List Char × List (Int × ℚ)),
      AMap.find? w'
        (pairs.foldl
          (fun inv q =>
            if (gk q.1).isEmpty then AMap.eraseKey q.1 (AMap.setVal q.1 (gk q.1) inv)
            else AMap.setVal q.1 (gk q.1) inv)
          inv)
      = if w' ∈ pairs.map Prod.fst then
          (if (gk w').isEmpty then none else some (gk w'))
        else AMap.find? w' inv := by
  induction pairs with
  | nil => intro inv; simp
  | cons p rest ih =>
    intro inv
    simp only [List.foldl_cons, List.map_cons, List.mem_cons]
    rw [ih]
    by_cases hmem : w' ∈ rest.map Prod.fst
    · rw [if_pos hmem, if_pos (Or.inr hmem)]
    · rw [if_neg hmem]
      by_cases hw : w' = p.1
      · rw [if_pos (Or.inl hw), hw]
        by_cases he : (gk p.1).isEmpty
        · rw [if_pos he, if_pos he]
          exact AMap.find?_eraseKey_self p.1 _
        · rw [if_neg he, if_neg he]
          exact AMap.find?_setVal_self p.1 _ _
      · rw [if_neg (show ¬ (w' = p.1 ∨ w' ∈ rest.map Prod.fst) from
          fun hor => hor.elim hw hmem)]
        have hne : w' ≠ p.1 := hw
        by_cases he : (gk p.1).isEmpty
        · rw [if_pos he, AMap.find?_eraseKey_ne p.1 w' _ hne,
            AMap.find?_setVal_ne p.1 w' _ _ hne]
        · rw [if_neg he, AMap.find?_setVal_ne p.1 w' _ _ hne]

theorem zip_mapmap_foldl {α β γ δ : Type} (l : List α) (f : α → β) (g : β → γ)
    (step : δ → α × γ → δ) (init : δ) :
    (l.zip ((l.map f).map g)).foldl step init
      = l.foldl (fun d x => step d (x, g (f x))) init := by
  rw [List.map_map, zip_map_self, List.foldl_map]
  rfl

theorem removeDocument_not_live (s : SearchServer) (document_id : Int)
    (policy : Policy)
    (h : AMap.find? document_id s.document_id_to_document_data = none) :
    s.RemoveDocument document_id policy = s := by
  unfold SearchServer.RemoveDocument
  rw [if_pos (by simp [h])]

theorem removeDocument_fwd_live (s : SearchServer) (document_id : Int)
    (policy : Policy)
    (hlive : (AMap.find? document_id s.document_id_to_document_data).isSome = true) :
    (s.RemoveDocument document_id policy).document_id_to_document_data
      = AMap.eraseKey document_id s.document_id_to_document_data := by
  unfold SearchServer.RemoveDocument
  rw [if_neg (by simp [hlive])]

theorem removeDocument_ids_live (s : SearchServer) (document_id : Int)
    (policy : Policy)
    (hlive : (AMap.find? document_id s.document_id_to_document_data).isSome = true) :
    (s.RemoveDocument document_id policy).document_ids
      = s.document_ids.filter (fun x => decide (x ≠ document_id)) := by
  unfold SearchServer.RemoveDocument
  rw [if_neg (by simp [hlive])]

theorem removeDocument_stop_words (s : SearchServer) (document_id : Int)
    (policy : Policy) :
    (s.RemoveDocument document_id policy).stop_words = s.stop_words := by
  unfold SearchServer.RemoveDocument
  by_cases h : (AMap.find? document_id s.document_id_to_document_data).isSome = false
  · rw [if_pos h]
  · rw [if_neg h]

/-- The inverted index after a live removal, expressed as a fold over the
document's word/frequency pairs (independent of the execution policy). -/
theorem removeDocument_inv_eq (s : SearchServer) (document_id : Int)
    (policy : Policy)
    (hlive : (AMap.find? document_id s.document_id_to_document_data).isSome = true) :
    (s.RemoveDocument document_id policy).word_to_document_id_to_term_frequency
      = (s.GetWordFrequencies document_id).foldl
          (fun inv q =>
            if (AMap.eraseKey document_id
                  (AMap.getD q.1 [] s.word_to_document_id_to_term_frequency)).isEmpty
            then AMap.eraseKey q.1
              (AMap.setVal q.1
                (AMap.eraseKey document_id
                  (AMap.getD q.1 [] s.word_to_document_id_to_term_frequency)) inv)
            else AMap.setVal q.1
              (AMap.eraseKey document_id
                (AMap.getD q.1 [] s.word_to_document_id_to_term_frequency)) inv)
          s.word_to_document_id_to_term_frequency := by
  cases policy with
  | parallel =>
    unfold SearchServer.RemoveDocument SearchServer.eraseFromInnersPar
    rw [if_neg (by simp [hlive])]
    exact zip_mapmap_foldl _ _ _ _ _
  | sequential =>
    unfold SearchServer.RemoveDocument
    rw [if_neg (by simp [hlive])]
    show ((s.GetWordFrequencies document_id).zip
        (SearchServer.eraseFromInnersSeq document_id
          ((s.GetWordFrequencies document_id).map
            (fun p => AMap.getD p.1 [] s.word_to_document_id_to_term_frequency)))).foldl
        (fun inv p =>
          if p.2.isEmpty then AMap.eraseKey p.1.1 (AMap.setVal p.1.1 p.2 inv)
          else AMap.setVal p.1.1 p.2 inv)
        s.word_to_document_id_to_term_frequency = _
    rw [eraseFromInnersSeq_eq_par]
    exact zip_mapmap_foldl _ _ _ _ _

/-- What a live `RemoveDocument` does to the inverted index, stated through
lookups. -/
theorem removeDocument_find?_inv (s : SearchServer) (document_id : Int)
    (policy : Policy)
    (hlive : (AMap.find? document_id s.document_id_to_document_data).isSome = true)
    (w' : List Char) :
    AMap.find? w'
        (s.RemoveDocument document_id policy).word_to_document_id_to_term_frequency
      = if w' ∈ (s.GetWordFrequencies document_id).map Prod.fst then
          (if (AMap.eraseKey document_id
                (AMap.getD w' [] s.word_to_document_id_to_term_frequency)).isEmpty
           then none
           else some (AMap.eraseKey document_id
                (AMap.getD w' [] s.word_to_document_id_to_term_frequency)))
        else AMap.find? w' s.word_to_document_id_to_term_frequency := by
  rw [removeDocument_inv_eq s document_id policy hlive]
  exact removeFold_find?
    (fun w => AMap.eraseKey document_id
      (AMap.getD w [] s.word_to_document_id_to_term_frequency))
    (s.GetWordFrequencies document_id) w'
    s.word_to_document_id_to_term_frequency

/-! ## AddDocument: failure characterization and success shape -/

theorem mem_insertSet {α : Type} [DecidableEq α] {x a : α} {s : List α} :
    x ∈ insertSet a s ↔ x = a ∨ x ∈ s := by
  unfold insertSet
  by_cases h : a ∈ s
  · simp only [h, if_pos]
    constructor
    · exact fun hx => Or.inr hx
    · rintro (hx | hx)
      · exact hx ▸ h
      · exact hx
  · simp [h, List.mem_append, or_comm]

theorem find?_emplace_self {κ ν : Type} [DecidableEq κ] {k : κ} (v : ν)
    {m : List (κ × ν)} (h : AMap.find? k m = none) :
    AMap.find? k (AMap.emplace k v m) = some v := by
  unfold AMap.emplace
  rw [if_neg (by simp [h])]
  rw [AMap.find?_append_none h]
  simp [AMap.find?]

theorem find?_emplace_ne {κ ν : Type} [DecidableEq κ] {k k' : κ} (v : ν)
    {m : List (κ × ν)} (hne : k' ≠ k) :
    AMap.find? k' (AMap.emplace k v m) = AMap.find? k' m := by
  unfold AMap.emplace
  by_cases h : (AMap.find? k m).isSome
  · rw [if_pos h]
  · rw [if_neg h]
    cases hm : AMap.find? k' m with
    | some v' => exact AMap.find?_append_some hm
    | none =>
      rw [AMap.find?_append_none hm]
      have : ¬ k = k' := fun hh => hne hh.symm
      simp [AMap.find?, this]

/-- `AddDocument` fails exactly on the three validations, in source order,
and a failure leaves the state untouched. -/
theorem addDocument_error_char (s : SearchServer) (document_id : Int)
    (document : List Char) (status : DocumentStatus) (ratings : List Int) :
    ((s.AddDocument document_id document status ratings).1.isSome = true ↔
      (document_id < 0 ∨
        (AMap.find? document_id s.document_id_to_document_data).isSome = true ∨
        document.any isControlChar = true)) ∧
    ((s.AddDocument document_id document status ratings).1.isSome = true →
      (s.AddDocument document_id document status ratings).2 = s) := by
  unfold SearchServer.AddDocument
  by_cases h1 : document_id < 0
  · simp [h1]
  · rw [if_neg h1]
    by_cases h2 : (AMap.find? document_id s.document_id_to_document_data).isSome = true
    · simp [h2]
    · rw [if_neg (by simpa using h2)]
      by_cases h3 : document.any isControlChar = true
      · have hv : (!IsValidWord document) = true := by rw [not_isValidWord, h3]
        simp [hv, h1, h2, h3]
      · have hv : (!IsValidWord document) = false := by
          rw [not_isValidWord]
          simpa using h3
        simp [hv, h1, h2, h3]

/-- The success shape of `AddDocument`: under the three validations the
result is the indexing fold plus the forward/live insertions. -/
theorem addDocument_success_eq (s : SearchServer) (document_id : Int)
    (document : List Char) (status : DocumentStatus) (ratings : List Int)
    (h1 : ¬ document_id < 0)
    (h2 : (AMap.find? document_id s.document_id_to_document_data).isSome = false)
    (h3 : IsValidWord document = true) :
    s.AddDocument document_id document status ratings =
      (none,
       { stop_words := s.stop_words,
         word_to_document_id_to_term_frequency :=
           ((s.SplitIntoWordsNoStop document).foldl
             (SearchServer.addWordStep document_id
               (1 / ((s.SplitIntoWordsNoStop document).length : ℚ)))
             (s.word_to_document_id_to_term_frequency, [])).1,
         document_id_to_document_data :=
           AMap.emplace document_id
             ⟨SearchServer.ComputeAverageRating ratings, status,
              ((s.SplitIntoWordsNoStop document).foldl
                (SearchServer.addWordStep document_id
                  (1 / ((s.SplitIntoWordsNoStop document).length : ℚ)))
                (s.word_to_document_id_to_term_frequency, [])).2⟩
             s.document_id_to_document_data,
         document_ids := insertSet document_id s.document_ids }) := by
  unfold SearchServer.AddDocument
  rw [if_neg h1, if_neg (by simp [h2]), if_neg (by simp [h3])]

theorem stateInv_init : StateInv SearchServer.init := by
  refine ⟨?_, ?_, ?_, ?_⟩ <;> simp [SearchServer.init, AMap.keysNodup, AMap.keys]

theorem setStopWordsLoop_fields (f : SearchServer → List Char → Except String SearchServer)
    (hf : ∀ st w st2, f st w = Except.ok st2 →
      st2.word_to_document_id_to_term_frequency = st.word_to_document_id_to_term_frequency ∧
      st2.document_id_to_document_data = st.document_id_to_document_data ∧
      st2.document_ids = st.document_ids) :
    ∀ (ws : List (List Char)) (st s2 : SearchServer),
      ws.foldlM f st = Except.ok s2 →
      s2.word_to_document_id_to_term_frequency = st.word_to_document_id_to_term_frequency ∧
      s2.document_id_to_document_data = st.document_id_to_document_data ∧
      s2.document_ids = st.document_ids := by
  intro ws
  induction ws with
  | nil =>
    intro st s2 h
    simp only [List.foldlM_nil] at h
    cases h
    exact ⟨rfl, rfl, rfl⟩
  | cons w rest ih =>
    intro st s2 h
    simp only [List.foldlM_cons] at h
    cases hf1 : f st w with
    | error e => rw [hf1] at h; cases h
    | ok st1 =>
      rw [hf1] at h
      replace h : rest.foldlM f st1 = Except.ok s2 := h
      rcases hf st w st1 hf1 with ⟨e1, e2, e3⟩
      rcases ih st1 s2 h with ⟨d1, d2, d3⟩
      exact ⟨d1.trans e1, d2.trans e2, d3.trans e3⟩

theorem setStopWords_fields {s s2 : SearchServer} {text : List Char}
    (h : s.SetStopWords text = Except.ok s2) :
    s2.word_to_document_id_to_term_frequency = s.word_to_document_id_to_term_frequency ∧
    s2.document_id_to_document_data = s.document_id_to_document_data ∧
    s2.document_ids = s.document_ids := by
  refine setStopWordsLoop_fields _ ?_ (splitIntoWordsView text) s s2 h
  intro st w st2 hw
  by_cases hv : (!IsValidWord w) = true
  · simp [hv] at hw
  · rw [show (!IsValidWord w) = false by simpa using hv] at hw
    simp only [Bool.false_eq_true, if_neg, not_false_iff, Except.ok.injEq] at hw
    subst hw
    exact ⟨rfl, rfl, rfl⟩

theorem stateInv_mk {stop_words : List Char} {s : SearchServer}
    (h : mkSearchServer stop_words = Except.ok s) : StateInv s := by
  unfold mkSearchServer at h
  by_cases hv : (!IsValidWord stop_words) = true
  · simp [hv] at h
  · rw [show (!IsValidWord stop_words) = false by simpa using hv] at h
    simp only [Bool.false_eq_true, if_neg, not_false_iff] at h
    rcases setStopWords_fields h with ⟨e1, e2, e3⟩
    refine ⟨?_, ?_, ?_, ?_⟩
    · intro id hid
      rw [e3] at hid
      simp [SearchServer.init] at hid
    · intro p hp
      rw [e2] at hp
      simp [SearchServer.init] at hp
    · rw [e1]
      exact AMap.keysNodup_nil
    · intro p hp
      rw [e1] at hp
      simp [SearchServer.init] at hp

theorem addFold_keysNodup (document_id : Int) (q : ℚ) :
    ∀ (words : List (List Char))
      (acc : List (List Char × List (Int × ℚ)) × List (List Char × ℚ)),
      AMap.keysNodup acc.1 →
      AMap.keysNodup ((words.foldl (SearchServer.addWordStep document_id q) acc).1) := by
  intro words
  induction words with
  | nil => intro acc h; exact h
  | cons w rest ih =>
    intro acc h
    simp only [List.foldl_cons]
    exact ih _ (AMap.keysNodup_setVal _ _ h)

theorem addFold_Q (s : SearchServer) (document_id : Int) (v : ℚ) :
    ∀ (words : List (List Char))
      (acc : List (List Char × List (Int × ℚ)) × List (List Char × ℚ)),
      addQ s document_id acc →
      addQ s document_id (words.foldl (SearchServer.addWordStep document_id v) acc) := by
  intro words
  induction words with
  | nil => intro acc h; exact h
  | cons w rest ih =>
    intro acc h
    simp only [List.foldl_cons]
    apply ih
    intro p hp q hq
    rcases AMap.mem_setVal _ _ hp with hpw | hpold
    · subst hpw
      rcases AMap.mem_setVal _ _ hq with hqd | hqin
      · subst hqd
        refine ⟨fun _ => ?_, fun hne => absurd rfl hne⟩
        simp [SearchServer.addWordStep, AMap.find?_setVal_self]
      · cases hfind : AMap.find? w acc.1 with
        | none =>
          rw [show AMap.getD w [] acc.1 = [] by simp [AMap.getD, hfind]] at hqin
          simp at hqin
        | some inner0 =>
          rw [show AMap.getD w [] acc.1 = inner0 by simp [AMap.getD, hfind]] at hqin
          rcases h (w, inner0) (AMap.find?_mem hfind) q hqin with ⟨c1, c2⟩
          refine ⟨fun _ => ?_, c2⟩
          simp [SearchServer.addWordStep, AMap.find?_setVal_self]
    · rcases h p hpold q hq with ⟨c1, c2⟩
      refine ⟨fun hd => ?_, c2⟩
      exact AMap.isSome_find?_setVal _ _ _ _ (c1 hd)

theorem find?_eq_none_of_isSome_false {κ ν : Type} [DecidableEq κ] {k : κ}
    {m : List (κ × ν)} (h : (AMap.find? k m).isSome = false) :
    AMap.find? k m = none := by
  cases hm : AMap.find? k m with
  | none => rfl
  | some v => rw [hm] at h; cases h

theorem stateInv_addDocument (s : SearchServer) (document_id : Int)
    (document : List Char) (status : DocumentStatus) (ratings : List Int)
    (hInv : StateInv s) :
    StateInv (s.AddDocument document_id document status ratings).2 := by
  by_cases h1 : document_id < 0
  · have herr := (addDocument_error_char s document_id document status ratings).1.mpr
      (Or.inl h1)
    rw [(addDocument_error_char s document_id document status ratings).2 herr]
    exact hInv
  · by_cases h2 : (AMap.find? document_id s.document_id_to_document_data).isSome = true
    · have herr := (addDocument_error_char s document_id document status ratings).1.mpr
        (Or.inr (Or.inl h2))
      rw [(addDocument_error_char s document_id document status ratings).2 herr]
      exact hInv
    · by_cases h3 : document.any isControlChar = true
      · have herr := (addDocument_error_char s document_id document status ratings).1.mpr
          (Or.inr (Or.inr h3))
        rw [(addDocument_error_char s document_id document status ratings).2 herr]
        exact hInv
      · have h2f : (AMap.find? document_id s.document_id_to_document_data).isSome = false := by
          simpa using h2
        have h3v : IsValidWord document = true := by
          simp only [IsValidWord]
          simpa using h3
        have hnone : AMap.find? document_id s.document_id_to_document_data = none :=
          find?_eq_none_of_isSome_false h2f
        rw [addDocument_success_eq s document_id document status ratings h1 h2f h3v]
        set words := s.SplitIntoWordsNoStop document with hwords
        set v : ℚ := 1 / ((words).length : ℚ) with hv
        set acc := words.foldl (SearchServer.addWordStep document_id v)
          (s.word_to_document_id_to_term_frequency, []) with hacc
        set data : DocumentData :=
          ⟨SearchServer.ComputeAverageRating ratings, status, acc.2⟩ with hdata
        have hemp : AMap.emplace document_id data s.document_id_to_document_data
            = s.document_id_to_document_data ++ [(document_id, data)] := by
          unfold AMap.emplace
          rw [if_neg (by simp [hnone])]
        have hQ : addQ s document_id acc := by
          apply addFold_Q
          intro p hp q hq
          constructor
          · intro hd
            have := hInv.2.2.2 p hp q hq
            rw [hd] at this
            rw [show idLiveWith s p.1 document_id = false by
              simp [idLiveWith, hnone]] at this
            cases this
          · intro hne
            exact hInv.2.2.2 p hp q hq
        refine ⟨?_, ?_, ?_, ?_⟩
        · intro id' hid'
          simp only at hid' ⊢
          rw [hemp]
          rcases mem_insertSet.mp hid' with hid' | hid'
          · subst hid'
            rw [AMap.find?_append_none hnone]
            simp [AMap.find?]
          · have := hInv.1 id' hid'
            rcases Option.isSome_iff_exists.mp this with ⟨d, hd⟩
            rw [AMap.find?_append_some hd]
            rfl
        · intro p hp
          simp only at hp ⊢
          rw [hemp] at hp
          rcases List.mem_append.mp hp with hp | hp
          · exact mem_insertSet.mpr (Or.inr (hInv.2.1 p hp))
          · simp only [List.mem_singleton] at hp
            subst hp
            exact mem_insertSet.mpr (Or.inl rfl)
        · exact addFold_keysNodup document_id v words _ hInv.2.2.1
        · intro p hp q hq
          simp only at hp ⊢
          rcases hQ p hp q hq with ⟨c1, c2⟩
          by_cases hqd : q.1 = document_id
          · have hs := c1 hqd
            rw [hqd]
            simp only [idLiveWith, hemp]
            rw [AMap.find?_append_none hnone]
            rw [show AMap.find? document_id [(document_id, data)] = some data by
              simp [AMap.find?]]
            exact hs
          · have hlive := c2 hqd
            simp only [idLiveWith] at hlive ⊢
            cases hq1 : AMap.find? q.1 s.document_id_to_document_data with
            | none => rw [hq1] at hlive; cases hlive
            | some d =>
              rw [hq1] at hlive
              simp only [hemp]
              rw [AMap.find?_append_some hq1]
              exact hlive

theorem removeFold_keysNodup (gk : List Char → List (Int × ℚ)) :
    ∀ (pairs : List (List Char × ℚ)) (inv : List (List Char × List (Int × ℚ))),
      AMap.keysNodup inv →
      AMap.keysNodup
        (pairs.foldl
          (fun inv q =>
            if (gk q.1).isEmpty then AMap.eraseKey q.1 (AMap.setVal q.1 (gk q.1) inv)
            else AMap.setVal q.1 (gk q.1) inv)
          inv) := by
  intro pairs
  induction pairs with
  | nil => intro inv h; exact h
  | cons p rest ih =>
    intro inv h
    simp only [List.foldl_cons]
    apply ih
    by_cases he : (gk p.1).isEmpty
    · rw [if_pos he]
      exact AMap.keysNodup_eraseKey _ (AMap.keysNodup_setVal _ _ h)
    · rw [if_neg he]
      exact AMap.keysNodup_setVal _ _ h

theorem stateInv_removeDocument (s : SearchServer) (document_id : Int)
    (policy : Policy) (hInv : StateInv s) :
    StateInv (s.RemoveDocument document_id policy) := by
  by_cases hlive : (AMap.find? document_id s.document_id_to_document_data).isSome = true
  · rcases Option.isSome_iff_exists.mp hlive with ⟨data, hdata⟩
    have hwf : s.GetWordFrequencies document_id = data.word_frequencies := by
      simp [SearchServer.GetWordFrequencies, hdata]
    have hinv3 :
        AMap.keysNodup
          (s.RemoveDocument document_id policy).word_to_document_id_to_term_frequency := by
      rw [removeDocument_inv_eq s document_id policy hlive]
      exact removeFold_keysNodup
        (fun w => AMap.eraseKey document_id
          (AMap.getD w [] s.word_to_document_id_to_term_frequency))
        (s.GetWordFrequencies document_id) _ hInv.2.2.1
    refine ⟨?_, ?_, hinv3, ?_⟩
    · intro id' hid'
      rw [removeDocument_ids_live s document_id policy hlive] at hid'
      rcases List.mem_filter.mp hid' with ⟨hmem, hne⟩
      have hne' : id' ≠ document_id := by simpa using hne
      rw [removeDocument_fwd_live s document_id policy hlive,
        AMap.find?_eraseKey_ne document_id id' _ hne']
      exact hInv.1 id' hmem
    · intro p hp
      rw [removeDocument_fwd_live s document_id policy hlive] at hp
      rcases AMap.mem_of_mem_eraseKey hp with ⟨hmem, hne⟩
      rw [removeDocument_ids_live s document_id policy hlive]
      exact List.mem_filter.mpr ⟨hInv.2.1 p hmem, by simpa using hne⟩
    · intro p hp q hq
      have hfind : AMap.find? p.1
          (s.RemoveDocument document_id policy).word_to_document_id_to_term_frequency
          = some p.2 :=
        AMap.mem_entry_of_find?_eq_some_rev (k := p.1) (v := p.2) hinv3 hp
      rw [removeDocument_find?_inv s document_id policy hlive p.1] at hfind
      by_cases hmem : p.1 ∈ (s.GetWordFrequencies document_id).map Prod.fst
      · rw [if_pos hmem] at hfind
        by_cases he : (AMap.eraseKey document_id
            (AMap.getD p.1 [] s.word_to_document_id_to_term_frequency)).isEmpty
        · rw [if_pos he] at hfind; simp at hfind
        · rw [if_neg he] at hfind
          have hp2 : p.2 = AMap.eraseKey document_id
              (AMap.getD p.1 [] s.word_to_document_id_to_term_frequency) :=
            (Option.some.inj hfind).symm
          rw [hp2] at hq
          rcases AMap.mem_of_mem_eraseKey hq with ⟨hqin, hqne⟩
          cases hfind0 : AMap.find? p.1 s.word_to_document_id_to_term_frequency with
          | none =>
            rw [show AMap.getD p.1 [] s.word_to_document_id_to_term_frequency = [] by
              simp [AMap.getD, hfind0]] at hqin
            simp at hqin
          | some inner0 =>
            rw [show AMap.getD p.1 [] s.word_to_document_id_to_term_frequency = inner0 by
              simp [AMap.getD, hfind0]] at hqin
            have hold := hInv.2.2.2 (p.1, inner0) (AMap.find?_mem hfind0) q hqin
            simp only [idLiveWith] at hold ⊢
            cases hq1 : AMap.find? q.1 s.document_id_to_document_data with
            | none => rw [hq1] at hold; cases hold
            | some d =>
              rw [hq1] at hold
              rw [removeDocument_fwd_live s document_id policy hlive,
                AMap.find?_eraseKey_ne document_id q.1 _ hqne, hq1]
              exact hold
      · rw [if_neg hmem] at hfind
        have hold := hInv.2.2.2 (p.1, p.2) (AMap.find?_mem hfind) q hq
        have hqne : q.1 ≠ document_id := by
          intro hqd
          rw [hqd] at hold
          simp only [idLiveWith, hdata] at hold
          have : p.1 ∈ AMap.keys data.word_frequencies :=
            AMap.isSome_find?_iff_mem_keys.mp hold
          rw [hwf] at hmem
          exact hmem this
        simp only [idLiveWith] at hold ⊢
        cases hq1 : AMap.find? q.1 s.document_id_to_document_data with
        | none => rw [hq1] at hold; cases hold
        | some d =>
          rw [hq1] at hold
          rw [removeDocument_fwd_live s document_id policy hlive,
            AMap.find?_eraseKey_ne document_id q.1 _ hqne, hq1]
          exact hold
  · have hnone : AMap.find? document_id s.document_id_to_document_data = none :=
      find?_eq_none_of_isSome_false (by simpa using hlive)
    rw [removeDocument_not_live s document_id policy hnone]
    exact hInv

theorem stateInv_reachable {s : SearchServer} (h : Reachable s) : StateInv s := by
  induction h with
  | init => exact stateInv_init
  | construct sw s hmk => exact stateInv_mk hmk
  | add s id doc st rs s2 hr hadd ih =>
    have := stateInv_addDocument s id doc st rs ih
    rw [hadd] at this
    exact this
  | remove s id policy hr ih => exact stateInv_removeDocument s id policy ih

/-! ## The claims -/

/-- C1, counterexample: the claim fails as stated on the code.  Inserting a
document with empty text is a successful public operation, after which id 0
is live (it is in the live-id set) but no inner map of the inverted index
mentions it, so the union of inner key sets differs from the live-id set. -/
theorem c1_counterexample :
    (SearchServer.init.AddDocument 0 [] DocumentStatus.ACTUAL [1]).1 = none ∧
    (0 : Int) ∈ (SearchServer.init.AddDocument 0 [] DocumentStatus.ACTUAL [1]).2.document_ids ∧
    ¬ ∃ p ∈ (SearchServer.init.AddDocument 0 []
        DocumentStatus.ACTUAL [1]).2.word_to_document_id_to_term_frequency,
        (AMap.find? (0 : Int) p.2).isSome = true := by
  refine ⟨rfl, by decide, by decide⟩

/-- C1 (amended): after every sequence of successful public operations
(construction, `AddDocument`, `RemoveDocument`), the set of live document
ids equals the key set of the forward map, and the union of the inner key
sets of the inverted index is a subset of that set (the inclusion can be
strict for a live document with zero non-stop tokens). -/
theorem c1_global_sets (s : SearchServer) (h : Reachable s) :
    (∀ id : Int, id ∈ s.document_ids ↔
      (AMap.find? id s.document_id_to_document_data).isSome = true) ∧
    (∀ p ∈ s.word_to_document_id_to_term_frequency, ∀ q ∈ p.2,
      q.1 ∈ s.document_ids) := by
  have hInv := stateInv_reachable h
  constructor
  · intro id
    constructor
    · exact fun hm => hInv.1 id hm
    · intro hs
      rcases Option.isSome_iff_exists.mp hs with ⟨d, hd⟩
      exact hInv.2.1 (id, d) (AMap.find?_mem hd)
  · intro p hp q hq
    have hl := hInv.2.2.2 p hp q hq
    unfold idLiveWith at hl
    cases hq1 : AMap.find? q.1 s.document_id_to_document_data with
    | none => rw [hq1] at hl; cases hl
    | some d => exact hInv.2.1 (q.1, d) (AMap.find?_mem hq1)

/-- C1, witness: the amended statement applied to the default-constructed
server. -/
theorem c1_global_sets_witness :
    (∀ id : Int, id ∈ SearchServer.init.document_ids ↔
      (AMap.find? id SearchServer.init.document_id_to_document_data).isSome = true) ∧
    (∀ p ∈ SearchServer.init.word_to_document_id_to_term_frequency, ∀ q ∈ p.2,
      q.1 ∈ SearchServer.init.document_ids) :=
  c1_global_sets SearchServer.init Reachable.init

/-- C2: for every query that parses, `FindTopDocuments` returns at most
`kMaxResultDocumentCount = 5` results, and each successive pair is ordered
by strictly greater relevance, or by relevance within `kAccuracy = 1e-6`
and non-increasing rating. -/
theorem c2_top_results (log : ℚ → ℚ) (s : SearchServer) (raw_query : List Char)
    (predicate : Int → DocumentStatus → Int → Bool) (result : List Document)
    (h : s.FindTopDocuments log raw_query predicate = Except.ok result) :
    result.length ≤ kMaxResultDocumentCount ∧
    List.Chain'
      (fun a b => a.relevance > b.relevance ∨
        (|a.relevance - b.relevance| < kAccuracy ∧ a.rating ≥ b.rating)) result := by
  unfold SearchServer.FindTopDocuments at h
  cases hq : s.ParseQuery raw_query with
  | none => rw [hq] at h; cases h
  | some query =>
    rw [hq] at h
    have hres := (Except.ok.inj h).symm
    constructor
    · rw [hres, List.length_take]
      exact min_le_left _ _
    · rw [hres]
      refine List.Chain'.imp ?_
        (chain'_take kMaxResultDocumentCount _ (chain'_sortDocs _))
      intro a b hab
      exact notInverted_implies_spec hab

/-- C2, witness: the empty index with the query "a". -/
theorem c2_top_results_witness :
    SearchServer.init.FindTopDocuments (fun _ => 0) ['a'] (fun _ _ _ => true)
      = Except.ok [] ∧
    ([] : List Document).length ≤ kMaxResultDocumentCount ∧
    List.Chain'
      (fun a b => a.relevance > b.relevance ∨
        (|a.relevance - b.relevance| < kAccuracy ∧ a.rating ≥ b.rating))
      ([] : List Document) :=
  ⟨rfl, c2_top_results (fun _ => 0) SearchServer.init ['a'] (fun _ _ _ => true) [] rfl⟩

/-- C3: whenever the parsed query carries a minus-word `w` that is a key of
the inverted index, no id returned by `FindTopDocuments` is a member of the
inner map `inverted[w]`. -/
theorem c3_minus_veto (log : ℚ → ℚ) (s : SearchServer) (raw_query : List Char)
    (predicate : Int → DocumentStatus → Int → Bool) (query : Query)
    (w : List Char) (inner : List (Int × ℚ)) (result : List Document)
    (hq : s.ParseQuery raw_query = some query)
    (hw : w ∈ query.minus_words)
    (hkey : AMap.find? w s.word_to_document_id_to_term_frequency = some inner)
    (hres : s.FindTopDocuments log raw_query predicate = Except.ok result) :
    result.all (fun d => (AMap.find? d.id inner).isNone) = true := by
  unfold SearchServer.FindTopDocuments at hres
  rw [hq] at hres
  have hresult := (Except.ok.inj hres).symm
  rw [List.all_eq_true]
  intro d hd
  rw [Option.isNone_iff_eq_none]
  rw [hresult] at hd
  have hd1 := mem_sortDocs (List.mem_of_mem_take hd)
  have hd2 := (List.mem_filter.mp hd1).1
  unfold SearchServer.FindAllDocuments at hd2
  rcases List.mem_map.mp hd2 with ⟨p, hpR, hpd⟩
  have hid : d.id = p.1 := by rw [← hpd]
  by_contra hcon
  have hsome : (AMap.find? d.id inner).isSome = true := by
    cases hfi : AMap.find? d.id inner with
    | none => exact absurd hfi hcon
    | some v => simp
  rw [hid] at hsome
  have hnone := eraseMinus_erases
    (R := SearchServer.accumulatePlus log s query.plus_words) hw hkey hsome
  have hmem := AMap.isSome_find?_of_mem hpR
  rw [hnone] at hmem
  cases hmem

/-- C3, witness: in `smallServer`, the query "a -b" has the minus-word "b"
present in the inverted index; the (empty) result mentions no id of
`inverted["b"]`. -/
theorem c3_minus_veto_witness :
    ([] : List Document).all
        (fun d => (AMap.find? d.id [((1 : Int), (1 : ℚ))]).isNone) = true :=
  c3_minus_veto (fun _ => 0) smallServer ['a', ' ', '-', 'b'] (fun _ _ _ => true)
    ⟨[['a']], [['b']]⟩ ['b'] [(1, 1)] [] rfl (by decide) rfl rfl

theorem rtree_eval_join (t : RTree (List Document)) :
    t.eval (fun a b => a ++ b) = t.leaves.join := by
  induction t with
  | leaf a => simp [RTree.eval, RTree.leaves]
  | node l r ihl ihr => simp [RTree.eval, RTree.leaves, ihl, ihr]

theorem foldl_append_eq_join (ls : List (List Document)) :
    ∀ a : List Document, ls.foldl (fun a b => a ++ b) a = a ++ ls.join := by
  induction ls with
  | nil => intro a; simp
  | cons x rest ih =>
    intro a
    simp only [List.foldl_cons, List.join]
    rw [ih (a ++ x)]
    simp [List.append_assoc]

/-- C4: `ProcessQueriesJoined` equals the left-fold concatenation, in query
order, of the per-query lists of `ProcessQueries`; moreover any reduction
tree over those lists (any parallel bracketing of `std::reduce` whose
in-order operands are the initial empty vector followed by the per-query
lists) evaluates to exactly that concatenation. -/
theorem c4_joined_order (log : ℚ → ℚ) (s : SearchServer)
    (queries : List (List Char)) (lists : List (List Document))
    (t : RTree (List Document))
    (hq : ProcessQueries log s queries = Except.ok lists)
    (ht : t.leaves = [] :: lists) :
    ProcessQueriesJoined log s queries
      = Except.ok (t.eval (fun a b => a ++ b)) := by
  unfold ProcessQueriesJoined
  rw [hq]
  have h1 : t.eval (fun a b => a ++ b) = lists.join := by
    rw [rtree_eval_join, ht]
    simp [List.join]
  have h2 : lists.foldl (fun a b => a ++ b) [] = lists.join := by
    rw [foldl_append_eq_join lists []]
    simp
  rw [show (Except.ok lists : Except String (List (List Document))).map
      (fun lists => lists.foldl (fun a b => a ++ b) []) =
      Except.ok (lists.foldl (fun a b => a ++ b) []) from rfl]
  rw [h1, h2]

/-- C4, witness: one query against the empty index, reduced with a
two-leaf tree. -/
theorem c4_joined_order_witness :
    ProcessQueriesJoined (fun _ => 0) SearchServer.init [['a']]
      = Except.ok ((RTree.node (RTree.leaf []) (RTree.leaf [])).eval
          (fun a b => a ++ b)) :=
  c4_joined_order (fun _ => 0) SearchServer.init [['a']] [[]]
    (RTree.node (RTree.leaf []) (RTree.leaf [])) rfl rfl

/-- C5: `AddDocument` raises an error exactly when the id is negative, the
id is already live, or the text contains a control byte; and a raising call
leaves the whole state unchanged. -/
theorem c5_insert_validation (s : SearchServer) (document_id : Int)
    (document : List Char) (status : DocumentStatus) (ratings : List Int) :
    ((s.AddDocument document_id document status ratings).1.isSome = true ↔
      (document_id < 0 ∨
        (AMap.find? document_id s.document_id_to_document_data).isSome = true ∨
        document.any isControlChar = true)) ∧
    ((s.AddDocument document_id document status ratings).1.isSome = true →
      (s.AddDocument document_id document status ratings).2 = s) :=
  addDocument_error_char s document_id document status ratings

/-- C5, witness: the validation characterization at a concrete negative-id
insertion. -/
theorem c5_insert_validation_witness :
    ((SearchServer.init.AddDocument (-1) [] DocumentStatus.ACTUAL [1]).1.isSome = true ↔
      ((-1 : Int) < 0 ∨
        (AMap.find? (-1 : Int) SearchServer.init.document_id_to_document_data).isSome = true ∨
        ([] : List Char).any isControlChar = true)) ∧
    ((SearchServer.init.AddDocument (-1) [] DocumentStatus.ACTUAL [1]).1.isSome = true →
      (SearchServer.init.AddDocument (-1) [] DocumentStatus.ACTUAL [1]).2
        = SearchServer.init) :=
  c5_insert_validation SearchServer.init (-1) [] DocumentStatus.ACTUAL [1]

/-- C6: `FindTopDocuments` and `MatchDocument` raise the invalid-query
error exactly when some token of the raw query is lexically invalid (empty
after stripping a leading minus, a further leading minus, or a control
character). -/
theorem c6_invalid_query (log : ℚ → ℚ) (s : SearchServer) (raw_query : List Char)
    (document_id : Int) (policy : Policy)
    (predicate : Int → DocumentStatus → Int → Bool) :
    ((∃ e, s.FindTopDocuments log raw_query predicate = Except.error e) ↔
      ∃ w ∈ splitIntoWords raw_query, badQueryToken w = true) ∧
    ((s.MatchDocument raw_query document_id policy
        = Except.error SearchServer.MatchError.invalidQuery) ↔
      ∃ w ∈ splitIntoWords raw_query, badQueryToken w = true) := by
  cases hq : s.ParseQuery raw_query with
  | none =>
    have hbad := (parseQuery_none_iff s raw_query).mp hq
    constructor
    · rw [iff_true_intro hbad, iff_true]
      refine ⟨"invalid request", ?_⟩
      unfold SearchServer.FindTopDocuments
      rw [hq]
    · rw [iff_true_intro hbad, iff_true]
      unfold SearchServer.MatchDocument
      rw [hq]
  | some query =>
    have hgood : ¬ ∃ w ∈ splitIntoWords raw_query, badQueryToken w = true := by
      intro hbad
      rw [(parseQuery_none_iff s raw_query).mpr hbad] at hq
      cases hq
    constructor
    · rw [iff_false_intro hgood, iff_false]
      rintro ⟨e, he⟩
      unfold SearchServer.FindTopDocuments at he
      rw [hq] at he
      cases he
    · rw [iff_false_intro hgood, iff_false]
      intro he
      unfold SearchServer.MatchDocument at he
      rw [hq] at he
      cases hfd : AMap.find? document_id s.document_id_to_document_data with
      | none => rw [hfd] at he; cases he
      | some data => rw [hfd] at he; cases he

/-- C6, witness: the characterization at the lone-minus query "-". -/
theorem c6_invalid_query_witness :
    ((∃ e, SearchServer.init.FindTopDocuments (fun _ => 0) ['-'] (fun _ _ _ => true)
        = Except.error e) ↔
      ∃ w ∈ splitIntoWords ['-'], badQueryToken w = true) ∧
    ((SearchServer.init.MatchDocument ['-'] 0 Policy.sequential
        = Except.error SearchServer.MatchError.invalidQuery) ↔
      ∃ w ∈ splitIntoWords ['-'], badQueryToken w = true) :=
  c6_invalid_query (fun _ => 0) SearchServer.init ['-'] 0 Policy.sequential
    (fun _ _ _ => true)

/-- C7: under the documented container invariants, `RemoveDocument` of a
non-live id is a no-op; removing a live id decreases the document count by
exactly one, leaves the id in no inner map of the inverted index, and
leaves no term key mapping to an empty inner map. -/
theorem c7_remove_document (s : SearchServer) (document_id : Int) (policy : Policy)
    (hnd : AMap.keysNodup s.document_id_to_document_data)
    (hinner : ∀ p ∈ s.word_to_document_id_to_term_frequency, p.2 ≠ [])
    (hcross : ∀ p ∈ s.word_to_document_id_to_term_frequency, ∀ q ∈ p.2,
        idLiveWith s p.1 q.1 = true) :
    (AMap.find? document_id s.document_id_to_document_data = none →
      s.RemoveDocument document_id policy = s) ∧
    (∀ data, AMap.find? document_id s.document_id_to_document_data = some data →
      (s.RemoveDocument document_id policy).GetDocumentCount + 1 = s.GetDocumentCount ∧
      (∀ w inner,
        AMap.find? w
            (s.RemoveDocument document_id policy).word_to_document_id_to_term_frequency
          = some inner →
        AMap.find? document_id inner = none ∧ inner ≠ [])) := by
  constructor
  · exact fun hnone => removeDocument_not_live s document_id policy hnone
  · intro data hdata
    have hlive : (AMap.find? document_id s.document_id_to_document_data).isSome = true := by
      simp [hdata]
    have hwfeq : s.GetWordFrequencies document_id = data.word_frequencies := by
      simp [SearchServer.GetWordFrequencies, hdata]
    constructor
    · have hlen := AMap.length_eraseKey hnd hdata
      unfold SearchServer.GetDocumentCount
      rw [removeDocument_fwd_live s document_id policy hlive]
      omega
    · intro w inner hfind
      rw [removeDocument_find?_inv s document_id policy hlive w] at hfind
      by_cases hmem : w ∈ (s.GetWordFrequencies document_id).map Prod.fst
      · rw [if_pos hmem] at hfind
        by_cases he : (AMap.eraseKey document_id
            (AMap.getD w [] s.word_to_document_id_to_term_frequency)).isEmpty
        · rw [if_pos he] at hfind; cases hfind
        · rw [if_neg he] at hfind
          have hinner_eq := (Option.some.inj hfind).symm
          constructor
          · rw [hinner_eq]
            exact AMap.find?_eraseKey_self document_id _
          · intro hnil
            rw [← hinner_eq, hnil] at he
            exact he rfl
      · rw [if_neg hmem] at hfind
        have hentry := AMap.find?_mem hfind
        constructor
        · cases hfi : AMap.find? document_id inner with
          | none => rfl
          | some v =>
            have hq := hcross (w, inner) hentry (document_id, v) (AMap.find?_mem hfi)
            simp only [idLiveWith, hdata] at hq
            have : w ∈ AMap.keys data.word_frequencies :=
              AMap.isSome_find?_iff_mem_keys.mp hq
            rw [hwfeq] at hmem
            exact absurd this hmem
        · exact hinner (w, inner) hentry

/-- C7, witness: removing the one live document of `smallServer`. -/
theorem c7_remove_document_witness :
    (AMap.find? (1 : Int) smallServer.document_id_to_document_data = none →
      smallServer.RemoveDocument 1 Policy.sequential = smallServer) ∧
    (∀ data, AMap.find? (1 : Int) smallServer.document_id_to_document_data = some data →
      (smallServer.RemoveDocument 1 Policy.sequential).GetDocumentCount + 1
          = smallServer.GetDocumentCount ∧
      (∀ w inner,
        AMap.find? w
            (smallServer.RemoveDocument 1
              Policy.sequential).word_to_document_id_to_term_frequency
          = some inner →
        AMap.find? (1 : Int) inner = none ∧ inner ≠ [])) :=
  c7_remove_document smallServer 1 Policy.sequential
    (by unfold AMap.keysNodup AMap.keys; decide) (by decide) (by decide)

theorem searchServer_eq (a b : SearchServer)
    (h1 : a.stop_words = b.stop_words)
    (h2 : a.word_to_document_id_to_term_frequency = b.word_to_document_id_to_term_frequency)
    (h3 : a.document_id_to_document_data = b.document_id_to_document_data)
    (h4 : a.document_ids = b.document_ids) : a = b := by
  cases a; cases b; simp_all

/-- C8: the parallel and sequential variants agree: `RemoveDocument` yields
the same final state under either policy, the policy-tagged overloads equal
the mode-enum form, and all `MatchDocument` overloads return the same
result. -/
theorem c8_policy_equivalence (s : SearchServer) (raw_query : List Char)
    (document_id : Int) (policy : Policy) :
    s.RemoveDocument document_id Policy.parallel
        = s.RemoveDocument document_id Policy.sequential ∧
    s.RemoveDocumentSeqTagged document_id
        = s.RemoveDocument document_id Policy.sequential ∧
    s.RemoveDocumentParTagged document_id
        = s.RemoveDocument document_id Policy.parallel ∧
    s.MatchDocumentParTagged raw_query document_id
        = s.MatchDocument raw_query document_id policy ∧
    s.MatchDocumentSeqTagged raw_query document_id
        = s.MatchDocument raw_query document_id policy := by
  refine ⟨?_, rfl, rfl, rfl, rfl⟩
  by_cases hlive : (AMap.find? document_id s.document_id_to_document_data).isSome = true
  · apply searchServer_eq
    · rw [removeDocument_stop_words, removeDocument_stop_words]
    · rw [removeDocument_inv_eq s document_id Policy.parallel hlive,
        removeDocument_inv_eq s document_id Policy.sequential hlive]
    · rw [removeDocument_fwd_live s document_id Policy.parallel hlive,
        removeDocument_fwd_live s document_id Policy.sequential hlive]
    · rw [removeDocument_ids_live s document_id Policy.parallel hlive,
        removeDocument_ids_live s document_id Policy.sequential hlive]
  · have hnone := find?_eq_none_of_isSome_false (by simpa using hlive)
    rw [removeDocument_not_live s document_id Policy.parallel hnone,
      removeDocument_not_live s document_id Policy.sequential hnone]

/-- C9, counterexample: the claim fails as stated on the code.  The
borrowed `string_view` tokenizer emits an empty token for the empty input
and for a leading space, because it pushes `substr(0, space_index)` before
checking that the piece is nonempty. -/
theorem c9_counterexample :
    splitIntoWordsView [] = [[]] ∧
    [] ∈ splitIntoWordsView [' ', 'a'] := by
  refine ⟨rfl, by decide⟩

/-- C9 (amended): the owning-string tokenizer returns exactly the ordered
maximal runs of non-whitespace bytes and never emits an empty token; the
borrowed `string_view` tokenizer returns all segments between single space
bytes in order, including the empty segments produced by an empty input
and by leading, trailing, or consecutive spaces. -/
theorem c9_tokenizers (text : List Char) :
    splitIntoWords text = (segmentsBy isCppSpace text).filter (fun w => !w.isEmpty) ∧
    (∀ w ∈ splitIntoWords text, w ≠ []) ∧
    splitIntoWordsView text = segmentsBy (fun c => c == ' ') text :=
  ⟨splitIntoWords_eq_segments text,
   fun _ hw => splitIntoWords_ne_nil hw,
   splitIntoWordsView_eq_segments text⟩

/-- C9, witness: the amended statement at a text with consecutive spaces. -/
theorem c9_tokenizers_witness :
    splitIntoWords ['a', ' ', ' ', 'b']
        = (segmentsBy isCppSpace ['a', ' ', ' ', 'b']).filter (fun w => !w.isEmpty) ∧
    (∀ w ∈ splitIntoWords ['a', ' ', ' ', 'b'], w ≠ []) ∧
    splitIntoWordsView ['a', ' ', ' ', 'b']
        = segmentsBy (fun c => c == ' ') ['a', ' ', ' ', 'b'] :=
  c9_tokenizers ['a', ' ', ' ', 'b']

/-- C10: a valid insertion whose text has zero non-stop tokens still
succeeds: the indexing loop body never runs (so the `1.0/0` increment is
never stored and the inverted index is unchanged), the id becomes live with
an empty per-document frequency map, no inverted-index entry mentions the
id, and the document count increases by one. -/
theorem c10_zero_token_insert (s : SearchServer) (document_id : Int)
    (document : List Char) (status : DocumentStatus) (ratings : List Int)
    (h1 : ¬ document_id < 0)
    (h2 : AMap.find? document_id s.document_id_to_document_data = none)
    (h3 : IsValidWord document = true)
    (h4 : ratings ≠ [])
    (h5 : s.SplitIntoWordsNoStop document = [])
    (h6 : ∀ p ∈ s.word_to_document_id_to_term_frequency,
        AMap.find? document_id p.2 = none) :
    (s.AddDocument document_id document status ratings).1 = none ∧
    (s.AddDocument document_id document status ratings).2.word_to_document_id_to_term_frequency
        = s.word_to_document_id_to_term_frequency ∧
    (∀ p ∈ (s.AddDocument document_id document status
        ratings).2.word_to_document_id_to_term_frequency,
      AMap.find? document_id p.2 = none) ∧
    AMap.find? document_id
        (s.AddDocument document_id document status ratings).2.document_id_to_document_data
      = some ⟨SearchServer.ComputeAverageRating ratings, status, []⟩ ∧
    document_id ∈ (s.AddDocument document_id document status ratings).2.document_ids ∧
    (s.AddDocument document_id document status ratings).2.GetDocumentCount
      = s.GetDocumentCount + 1 := by
  have h2f : (AMap.find? document_id s.document_id_to_document_data).isSome = false := by
    simp [h2]
  rw [addDocument_success_eq s document_id document status ratings h1 h2f h3]
  simp only [h5, List.foldl_nil]
  have hemp : AMap.emplace document_id
      ⟨SearchServer.ComputeAverageRating ratings, status, []⟩
      s.document_id_to_document_data
      = s.document_id_to_document_data
        ++ [(document_id, ⟨SearchServer.ComputeAverageRating ratings, status, []⟩)] := by
    unfold AMap.emplace
    rw [if_neg (by simp [h2])]
  refine ⟨trivial, trivial, h6, ?_, ?_, ?_⟩
  · rw [hemp, AMap.find?_append_none h2]
    simp [AMap.find?]
  · exact mem_insertSet.mpr (Or.inl rfl)
  · unfold SearchServer.GetDocumentCount
    rw [hemp]
    simp

/-- C10, witness: inserting text consisting of a single stop word into
`stopServer`. -/
theorem c10_zero_token_insert_witness :
    (stopServer.AddDocument 0 ['a'] DocumentStatus.ACTUAL [5]).1 = none ∧
    (stopServer.AddDocument 0 ['a'] DocumentStatus.ACTUAL
        [5]).2.word_to_document_id_to_term_frequency
        = stopServer.word_to_document_id_to_term_frequency ∧
    (∀ p ∈ (stopServer.AddDocument 0 ['a'] DocumentStatus.ACTUAL
        [5]).2.word_to_document_id_to_term_frequency,
      AMap.find? (0 : Int) p.2 = none) ∧
    AMap.find? (0 : Int)
        (stopServer.AddDocument 0 ['a'] DocumentStatus.ACTUAL
          [5]).2.document_id_to_document_data
      = some ⟨SearchServer.ComputeAverageRating [5], DocumentStatus.ACTUAL, []⟩ ∧
    (0 : Int) ∈ (stopServer.AddDocument 0 ['a'] DocumentStatus.ACTUAL [5]).2.document_ids ∧
    (stopServer.AddDocument 0 ['a'] DocumentStatus.ACTUAL [5]).2.GetDocumentCount
      = stopServer.GetDocumentCount + 1 :=
  c10_zero_token_insert stopServer 0 ['a'] DocumentStatus.ACTUAL [5]
    (by decide) rfl rfl (by decide) rfl (by decide)
